import Mathlib

/-!
Shallow embedding of the tiled raster conversion pipeline of
`src/main.cpp` (GDALRasterConverter).

The embedding covers:

* the tile decomposition performed by `Worker::processData`
  (`blockSizeX = blockSizeY = 256`, row-major nested loops with
  `min(blockSize, remaining)` clipping);
* the orchestration logic of `Worker::process`,
  `Worker::processWithCreateMethod`, `Worker::processWithCreateCopyMethod`
  and `Worker::processData` as a trace-producing function over an
  environment that supplies the outcomes of the external GDAL calls
  (open, driver lookup, create, per-band reads/writes) and the value
  of the `isConverting` atomic flag at each `load()` performed by the
  orchestration thread;
* the ETA computation of `MainWindow::updateProgress`.

Floating point progress fractions are modelled as exact rationals;
the `qint64` truncating cast in the ETA computation is modelled with
`Int.floor` (the quotient is non-negative there).
-/

namespace GDALRasterConverter

/-! ### Tile decomposition (`Worker::processData`, lines 252-277) -/

/-- A tile: origin and clipped size, as produced by the block loops. -/
structure Tile where
  x : Nat
  y : Nat
  width : Nat
  height : Nat
deriving DecidableEq, Repr

/-- The sequence of block start offsets along one axis:
`for (pos = 0; pos < size; pos += 256)`.  The source uses
`blockSizeX = blockSizeY = 256`. -/
def tileStarts (pos size : Nat) : List Nat :=
  if pos < size then pos :: tileStarts (pos + 256) size else []
termination_by size - pos
decreasing_by omega

/-- `nXBlocks = (nXSize + blockSizeX - 1) / blockSizeX` (line 259-260). -/
def nBlocks (size : Nat) : Nat := (size + 255) / 256

/-- All tiles of a `W × H` raster in the order the nested loops of
`processData` visit them: `y` outer, `x` inner, sizes clipped with
`min(blockSize, remaining)` (lines 274, 277). -/
def tiles (W H : Nat) : List Tile :=
  (tileStarts 0 H).flatMap fun y =>
    (tileStarts 0 W).map fun x =>
      ⟨x, y, min 256 (W - x), min 256 (H - y)⟩

lemma tileStarts_unfold (pos size : Nat) :
    tileStarts pos size =
      if pos < size then pos :: tileStarts (pos + 256) size else [] := by
  rw [tileStarts]

lemma tileStarts_eq_of_sub (size : Nat) :
    ∀ n k, nBlocks size - k = n →
      tileStarts (256 * k) size = (List.range n).map fun i => 256 * (k + i) := by
  intro n
  induction n with
  | zero =>
      intro k hk
      rw [tileStarts_unfold]
      have hk' : ¬ 256 * k < size := by
        unfold nBlocks at hk; omega
      simp [hk']
  | succ n ih =>
      intro k hk
      have hlt : 256 * k < size := by
        unfold nBlocks at hk; omega
      rw [tileStarts_unfold, if_pos hlt]
      have h256 : 256 * k + 256 = 256 * (k + 1) := by ring
      rw [h256, ih (k + 1) (by unfold nBlocks at hk ⊢; omega)]
      rw [List.range_succ_eq_map]
      simp only [List.map_cons, List.map_map]
      refine List.cons_eq_cons.mpr ⟨by omega, ?_⟩
      apply List.map_congr_left
      intro a _
      simp only [Function.comp_apply]
      omega

/-- Closed form of the loop over one axis. -/
lemma tileStarts_closed (size : Nat) :
    tileStarts 0 size = (List.range (nBlocks size)).map fun i => 256 * i := by
  have h := tileStarts_eq_of_sub size (nBlocks size) 0 (by omega)
  simpa using h

lemma tileStarts_length (size : Nat) :
    (tileStarts 0 size).length = nBlocks size := by
  rw [tileStarts_closed]; simp

/-- The tile with row-major index `i + j * nBlocks W`. -/
def tileAt (W H i j : Nat) : Tile :=
  ⟨256 * i, 256 * j, min 256 (W - 256 * i), min 256 (H - 256 * j)⟩

/-- Closed form of the tile list: a row-major double enumeration. -/
lemma tiles_closed (W H : Nat) :
    tiles W H =
      (List.range (nBlocks H)).flatMap fun j =>
        (List.range (nBlocks W)).map fun i => tileAt W H i j := by
  unfold tiles
  rw [tileStarts_closed, tileStarts_closed, List.flatMap_map]
  simp only [Function.comp_def, tileAt, List.map_map]

lemma tiles_length (W H : Nat) :
    (tiles W H).length = nBlocks W * nBlocks H := by
  rw [tiles_closed, List.length_flatMap]
  simp only [Function.comp_def]
  have h : ((List.range (nBlocks H)).map fun j =>
      ((List.range (nBlocks W)).map fun i => tileAt W H i j).length)
      = (List.range (nBlocks H)).map fun _ => nBlocks W := by
    apply List.map_congr_left
    intro a _
    simp
  rw [h, List.map_const', List.length_range, List.sum_replicate, smul_eq_mul, mul_comm]

/-- Fully indexed closed form: tile number `idx` sits in row `idx / nBlocks W`
and column `idx % nBlocks W`. -/
lemma tiles_index (W H : Nat) :
    tiles W H =
      (List.range (nBlocks W * nBlocks H)).map fun idx =>
        tileAt W H (idx % nBlocks W) (idx / nBlocks W) := by
  rw [tiles_closed]
  rcases Nat.eq_zero_or_pos (nBlocks W) with h0 | hpos
  · simp [h0]
  generalize nBlocks H = m
  induction m with
  | zero => simp
  | succ m ih =>
      rw [List.range_succ, List.flatMap_append, ih, Nat.mul_succ, List.range_add,
        List.map_append]
      congr 1
      simp only [List.flatMap_cons, List.flatMap_nil, List.append_nil, List.map_map]
      apply List.map_congr_left
      intro i hi
      have hi' : i < nBlocks W := List.mem_range.mp hi
      have hdiv : (nBlocks W * m + i) / nBlocks W = m := by
        rw [Nat.mul_add_div hpos, Nat.div_eq_of_lt hi']
        omega
      have hmod : (nBlocks W * m + i) % nBlocks W = i := by
        rw [Nat.mul_add_mod, Nat.mod_eq_of_lt hi']
      simp only [Function.comp_apply, hdiv, hmod]

/-- Membership characterization of the tile list. -/
lemma tiles_mem (W H : Nat) (t : Tile) :
    t ∈ tiles W H ↔
      ∃ i < nBlocks W, ∃ j < nBlocks H, t = tileAt W H i j := by
  rw [tiles_closed]
  simp only [List.mem_flatMap, List.mem_map, List.mem_range]
  constructor
  · rintro ⟨j, hj, i, hi, rfl⟩
    exact ⟨i, hi, j, hj, rfl⟩
  · rintro ⟨i, hi, j, hj, rfl⟩
    exact ⟨j, hj, i, hi, rfl⟩

/-- Sum of clipped block sizes along one axis recovers the axis length. -/
lemma sum_min_blocks : ∀ size : Nat,
    (((List.range (nBlocks size)).map fun i => min 256 (size - 256 * i)).sum) = size := by
  intro size
  induction size using Nat.strong_induction_on with
  | _ size ih =>
    rcases Nat.eq_zero_or_pos size with h0 | hpos
    · subst h0; simp [nBlocks]
    have hstep : nBlocks size = nBlocks (size - 256) + 1 := by
      unfold nBlocks; omega
    rw [hstep, List.range_succ_eq_map]
    simp only [List.map_cons, List.map_map, List.sum_cons]
    have hrw : ((List.range (nBlocks (size - 256))).map
        ((fun i => min 256 (size - 256 * i)) ∘ Nat.succ)).sum
        = ((List.range (nBlocks (size - 256))).map
            fun i => min 256 (size - 256 - 256 * i)).sum := by
      apply congrArg
      apply List.map_congr_left
      intro a _
      simp only [Function.comp]
      omega
    rw [hrw, ih (size - 256) (by omega)]
    omega

/-- Sum of tile areas equals the raster area. -/
lemma tiles_area_sum (W H : Nat) :
    ((tiles W H).map fun t => t.width * t.height).sum = W * H := by
  rw [tiles_closed, List.map_flatMap]
  have hrow : ∀ j : Nat,
      (((List.range (nBlocks W)).map fun i => tileAt W H i j).map
        fun t => t.width * t.height).sum
      = W * min 256 (H - 256 * j) := by
    intro j
    rw [List.map_map]
    have : ((List.range (nBlocks W)).map
        ((fun t : Tile => t.width * t.height) ∘ fun i => tileAt W H i j))
        = (List.range (nBlocks W)).map
            fun i => min 256 (W - 256 * i) * min 256 (H - 256 * j) := by
      apply List.map_congr_left
      intro a _
      simp [Function.comp, tileAt]
    rw [this, List.sum_map_mul_right, sum_min_blocks]
  calc ((List.range (nBlocks H)).flatMap fun j =>
          ((List.range (nBlocks W)).map fun i => tileAt W H i j).map
            fun t => t.width * t.height).sum
      = ((List.range (nBlocks H)).map fun j =>
          (((List.range (nBlocks W)).map fun i => tileAt W H i j).map
            fun t => t.width * t.height).sum).sum := by
        rw [show ∀ (l : List ℕ) (f : ℕ → List ℕ), l.flatMap f = (l.map f).flatten
              from fun _ _ => rfl, List.sum_flatten, List.map_map]
        rfl
    _ = ((List.range (nBlocks H)).map fun j => W * min 256 (H - 256 * j)).sum := by
        apply congrArg; exact List.map_congr_left fun j _ => hrow j
    _ = W * H := by
        rw [List.sum_map_mul_left, sum_min_blocks]

/-- Pixel membership in a tile, as the rectangle `[x, x+width) × [y, y+height)`. -/
def containsPix (t : Tile) (px py : Nat) : Bool :=
  decide (t.x ≤ px ∧ px < t.x + t.width ∧ t.y ≤ py ∧ py < t.y + t.height)

lemma containsPix_tileAt (W H i j px py : Nat) (hx : px < W) (hy : py < H) :
    containsPix (tileAt W H i j) px py = true ↔ (i = px / 256 ∧ j = py / 256) := by
  simp only [containsPix, tileAt, decide_eq_true_eq]
  omega

/-- Every pixel of the raster lies in exactly one tile (full disjoint cover). -/
lemma tiles_cover (W H px py : Nat) (hx : px < W) (hy : py < H) :
    (tiles W H).countP (fun t => containsPix t px py) = 1 := by
  rw [tiles_index, List.countP_map]
  have hW : 0 < nBlocks W := by unfold nBlocks; omega
  have hnX : px / 256 < nBlocks W := by unfold nBlocks; omega
  have hnY : py / 256 < nBlocks H := by unfold nBlocks; omega
  set idx0 := (py / 256) * nBlocks W + px / 256 with hidx0
  have hmod : idx0 % nBlocks W = px / 256 := by
    rw [hidx0, Nat.mul_add_mod' (py / 256) (nBlocks W) (px / 256), Nat.mod_eq_of_lt hnX]
  have hdiv : idx0 / nBlocks W = py / 256 := by
    rw [hidx0, mul_comm (py / 256) (nBlocks W), Nat.mul_add_div hW, Nat.div_eq_of_lt hnX]
    omega
  have hlt : idx0 < nBlocks W * nBlocks H := by
    rw [hidx0]
    calc py / 256 * nBlocks W + px / 256
        < py / 256 * nBlocks W + nBlocks W := Nat.add_lt_add_left hnX _
      _ = (py / 256 + 1) * nBlocks W := by ring
      _ ≤ nBlocks H * nBlocks W := Nat.mul_le_mul_right _ hnY
      _ = nBlocks W * nBlocks H := mul_comm _ _
  have hpred : ∀ idx ∈ List.range (nBlocks W * nBlocks H),
      ((fun t => containsPix t px py) ∘ fun idx =>
        tileAt W H (idx % nBlocks W) (idx / nBlocks W)) idx = true ↔ (idx == idx0) = true := by
    intro idx _
    simp only [Function.comp_apply]
    rw [beq_iff_eq,
      containsPix_tileAt W H (idx % nBlocks W) (idx / nBlocks W) px py hx hy]
    constructor
    · rintro ⟨h1, h2⟩
      calc idx = nBlocks W * (idx / nBlocks W) + idx % nBlocks W :=
            (Nat.div_add_mod idx (nBlocks W)).symm
        _ = nBlocks W * (py / 256) + px / 256 := by rw [← h1, ← h2]
        _ = idx0 := by rw [hidx0]; ring
    · rintro rfl
      exact ⟨hmod, hdiv⟩
  rw [List.countP_congr hpred]
  rw [show (fun idx => idx == idx0) = (· == idx0) from rfl, ← List.count]
  exact List.count_eq_one_of_mem (List.nodup_range _) (List.mem_range.mpr hlt)

/-- Every tile is clipped to the raster, nonempty, and sized
`min(256, remaining)` relative to its own origin. -/
lemma tiles_bounds (W H : Nat) (t : Tile) (ht : t ∈ tiles W H) :
    t.width = min 256 (W - t.x) ∧ t.height = min 256 (H - t.y)
    ∧ 0 < t.width ∧ 0 < t.height ∧ t.x + t.width ≤ W ∧ t.y + t.height ≤ H := by
  rw [tiles_mem] at ht
  obtain ⟨i, hi, j, hj, rfl⟩ := ht
  have hiW : 256 * i < W := by unfold nBlocks at hi; omega
  have hjH : 256 * j < H := by unfold nBlocks at hj; omega
  dsimp only [tileAt]
  omega

/-- Claim C1: for every raster width W > 0, height H > 0 and tile size
256×256, the tile loop enumerates exactly ceil(W/256) × ceil(H/256) tiles
in row-major order (tile number idx has column idx mod nX and row
idx div nX), each tile is clipped to min(256, remaining dimension), and
the tiles disjointly and fully cover the W×H rectangle, so the tile areas
sum to W×H. -/
theorem tile_loop_partition (W H : Nat) (hW : 0 < W) (hH : 0 < H) :
    (tiles W H).length = ((W + 255) / 256) * ((H + 255) / 256)
    ∧ tiles W H = (List.range (((W + 255) / 256) * ((H + 255) / 256))).map
        (fun idx => tileAt W H (idx % ((W + 255) / 256)) (idx / ((W + 255) / 256)))
    ∧ (∀ t ∈ tiles W H, t.width = min 256 (W - t.x) ∧ t.height = min 256 (H - t.y)
        ∧ 0 < t.width ∧ 0 < t.height ∧ t.x + t.width ≤ W ∧ t.y + t.height ≤ H)
    ∧ ((tiles W H).map fun t => t.width * t.height).sum = W * H
    ∧ (∀ px py, px < W → py < H →
        (tiles W H).countP (fun t => containsPix t px py) = 1) :=
  ⟨tiles_length W H, tiles_index W H, fun t ht => tiles_bounds W H t ht,
    tiles_area_sum W H, fun px py hx hy => tiles_cover W H px py hx hy⟩

/-- Witness for the tiling theorem at the concrete 600×400 raster. -/
theorem tile_loop_partition_witness :
    0 < 600 ∧ 0 < 400
    ∧ (tiles 600 400).length = ((600 + 255) / 256) * ((400 + 255) / 256)
    ∧ ((tiles 600 400).map fun t => t.width * t.height).sum = 600 * 400
    ∧ (tiles 600 400).countP (fun t => containsPix t 300 399) = 1 :=
  ⟨by decide, by decide,
    (tile_loop_partition 600 400 (by decide) (by decide)).1,
    (tile_loop_partition 600 400 (by decide) (by decide)).2.2.2.1,
    (tile_loop_partition 600 400 (by decide) (by decide)).2.2.2.2 300 399
      (by decide) (by decide)⟩

/-! ### Orchestration model (`Worker`, lines 38-403) -/

/-- Observable events of one conversion job: the three Qt signals
(`logMessage`, `progressUpdated`, `finished`) plus the destination-side
GDAL calls, which are recorded so that "the destination was never touched"
is expressible. -/
inductive Event where
  | log (msg : String)
  | progress (q : ℚ)
  | finished (success : Bool) (msg : String)
  | driverLookup
  | destCreate
  | destWriteTile (x y : Nat)
  | copyViaDriver
deriving DecidableEq, Repr

/-- An opened source dataset: the `GDALDataset` attributes the worker uses. -/
structure Dataset where
  xSize : Nat
  ySize : Nat
  bands : Nat
deriving DecidableEq, Repr

/-- `Worker::ProcessingMode`. -/
inductive ProcessingMode where
  | CPU
  | GPU
deriving DecidableEq, Repr

/-- Environment: outcomes of the external GDAL calls and the observed
values of the `isConverting` atomic flag.  `flag i` is the value returned
by the i-th `isConverting.load()` executed on the job path (`true` means
keep converting); per-band read/write outcomes are indexed by tile origin
and 1-based band index.  `copyProgress` is the sequence of completion
fractions the driver-owned `CreateCopy` loop passes to the progress
callback. -/
structure Env where
  source : Option Dataset
  driverExists : Bool
  driverCreate : Bool
  driverCreateCopy : Bool
  createOk : Bool
  copyOk : Bool
  readOk : Nat → Nat → Nat → Bool
  writeOk : Nat → Nat → Nat → Bool
  flag : Nat → Bool
  copyProgress : List ℚ
  lastErr : String
  inputFile : String
  outputFile : String
  outputDriverName : String
  options : List (String × String)

def cancelMsg : String := "Conversion cancelled by user."

def readErrMsg (e : Env) : String :=
  "Failed to read data from input dataset.\nGDAL Error: " ++ e.lastErr

def writeErrMsg (e : Env) : String :=
  "Failed to write data to output dataset.\nGDAL Error: " ++ e.lastErr

/-- All per-band `RasterIO(GF_Read)` calls of one tile succeed
(lines 283-301; the first failing band aborts the whole job). -/
def tileReadOk (e : Env) (x y nBands : Nat) : Bool :=
  (List.range nBands).all fun b => e.readOk x y (b + 1)

/-- All per-band `RasterIO(GF_Write)` calls of one tile succeed
(lines 346-359). -/
def tileWriteOk (e : Env) (x y nBands : Nat) : Bool :=
  (List.range nBands).all fun b => e.writeOk x y (b + 1)

/-- Exit status of the inner block loop of `processData`. -/
inductive RowExit where
  | ok
  | cancelBreak
  | failed
deriving DecidableEq, Repr

/-- One row of the inner block loop of `processData` (lines 275-365), over
the remaining x block starts.  Per entered iteration: one flag load for the
loop condition (line 275); the per-band reads; one flag load for the
mid-iteration cancellation check (line 334); the per-band writes; then the
counter increment and the progress signal with fraction
`completed / totalBlocks` (lines 362-364).  A `destWriteTile` event records
a fully committed tile.  The pooled `BlockProcessor` task (lines 304-343)
does no observable work and its own flag load happens on a pool thread, so
it is not part of this load sequence.  Result: emitted events, exit status,
next poll index, completed-blocks counter. -/
def runRow (e : Env) (y nBands total : Nat) :
    List Nat → Nat → Nat → List Event × RowExit × Nat × Nat
  | [], poll, completed => ([], .ok, poll, completed)
  | x :: xs, poll, completed =>
    if e.flag poll then
      if tileReadOk e x y nBands then
        if e.flag (poll + 1) then
          if tileWriteOk e x y nBands then
            match runRow e y nBands total xs (poll + 2) (completed + 1) with
            | (evs, r, poll', completed') =>
              (Event.destWriteTile x y ::
                Event.progress (((completed + 1 : Nat) : ℚ) / (total : ℚ)) :: evs,
                r, poll', completed')
          else
            ([Event.finished false (writeErrMsg e)], .failed, poll + 2, completed)
        else
          ([Event.finished false cancelMsg], .failed, poll + 2, completed)
      else
        ([Event.finished false (readErrMsg e)], .failed, poll + 1, completed)
    else
      ([], .cancelBreak, poll + 1, completed)

/-- The outer block loop of `processData` (line 272) over the y block
starts.  Each entered iteration consumes one flag load for the outer loop
condition, then runs the inner loop over all x block starts.  The boolean
is `false` iff `processData` returned false from inside the loop (a
finished signal was already emitted); `cancelBreak` of the inner loop
merely breaks back into the outer loop. -/
def runRows (e : Env) (W nBands total : Nat) :
    List Nat → Nat → Nat → List Event × Bool × Nat × Nat
  | [], poll, completed => ([], true, poll, completed)
  | y :: ys, poll, completed =>
    if e.flag poll then
      match runRow e y nBands total (tileStarts 0 W) (poll + 1) completed with
      | (evs, .failed, poll', completed') => (evs, false, poll', completed')
      | (evs, _, poll', completed') =>
        match runRows e W nBands total ys poll' completed' with
        | (evs2, b, poll'', completed'') => (evs ++ evs2, b, poll'', completed'')
    else
      ([], true, poll + 1, completed)

/-- `Worker::processData` (lines 249-379): intro log, the nested block
loops, the post-loop cancellation re-check (line 368) and the final
`progressUpdated(1.0f)` (line 376). -/
def processData (e : Env) (ds : Dataset) (numCores : Nat) : List Event × Bool :=
  let total := nBlocks ds.xSize * nBlocks ds.ySize
  let intro := Event.log ("Starting block processing using " ++ toString numCores
    ++ " core(s)...")
  match runRows e ds.xSize ds.bands total (tileStarts 0 ds.ySize) 0 0 with
  | (evs, b, poll, _) =>
    if b then
      if e.flag poll then
        (intro :: evs ++ [Event.progress 1], true)
      else
        (intro :: evs ++ [Event.finished false cancelMsg], false)
    else
      (intro :: evs, false)

/-- `Worker::processWithCreateMethod` (lines 166-221).  Projection and
geotransform copying (lines 199-210) has no observable effect in this
model. -/
def processWithCreateMethod (e : Env) (ds : Dataset) (numCores : Nat) :
    List Event × Bool :=
  let intro := Event.log "Using Create method."
  if ds.bands = 0 then
    ([intro, Event.finished false "Input dataset has no raster bands."], false)
  else if e.createOk then
    match processData e ds numCores with
    | (evs, b) => (intro :: Event.destCreate :: evs, b)
  else
    ([intro, Event.destCreate,
      Event.finished false ("Failed to create output dataset: " ++ e.outputFile
        ++ "\nGDAL Error: " ++ e.lastErr)], false)

/-- The driver-owned `CreateCopy` loop repeatedly invokes
`Worker::progressCallback` (lines 381-393) with completion fractions; the
callback forwards the fraction through `progressUpdated` while
`isConverting` is true, and returns FALSE (aborting the copy) once it is
false.  The fraction sequence and the outcome of an uninterrupted copy are
environment inputs. -/
def runCopy (e : Env) : List ℚ → Nat → List Event × Bool × Nat
  | [], poll => ([], e.copyOk, poll)
  | q :: qs, poll =>
    if e.flag poll then
      match runCopy e qs (poll + 1) with
      | (evs, ok, poll') => (Event.progress q :: evs, ok, poll')
    else
      ([], false, poll + 1)

/-- `Worker::processWithCreateCopyMethod` (lines 223-247). -/
def processWithCreateCopyMethod (e : Env) : List Event × Bool :=
  match runCopy e e.copyProgress 0 with
  | (evs, ok, _) =>
    if ok then
      (Event.log "Using CreateCopy method." :: Event.copyViaDriver :: evs, true)
    else
      (Event.log "Using CreateCopy method." :: Event.copyViaDriver :: evs
        ++ [Event.finished false ("Failed to create output dataset using CreateCopy: "
              ++ e.outputFile ++ "\nGDAL Error: " ++ e.lastErr)], false)

/-- `Worker::process` (lines 54-153). -/
def process (e : Env) (mode : ProcessingMode) (numCores : Nat) : List Event :=
  Event.log "Starting GDAL conversion..." ::
  match e.source with
  | none =>
    [Event.finished false ("Failed to open input file: " ++ e.inputFile
      ++ "\nGDAL Error: " ++ e.lastErr)]
  | some ds =>
    Event.log "Input file opened successfully."
    :: Event.driverLookup
    :: if !e.driverExists then
        [Event.finished false ("Output driver not available: " ++ e.outputDriverName)]
      else
        Event.log ("Output driver found: " ++ e.outputDriverName)
        :: ((e.options.map fun p =>
              Event.log ("Setting GDAL option: " ++ p.1 ++ " = " ++ p.2))
        ++ match mode with
          | .CPU =>
            Event.log "Processing mode: CPU"
            :: if e.driverCreate then
                match processWithCreateMethod e ds numCores with
                | (evs, true) =>
                  evs ++ [Event.log "Conversion process completed successfully.",
                    Event.finished true
                      ("Conversion completed successfully: " ++ e.outputFile)]
                | (evs, false) => evs
              else if e.driverCreateCopy then
                match processWithCreateCopyMethod e with
                | (evs, true) =>
                  evs ++ [Event.log "Conversion process completed successfully.",
                    Event.finished true
                      ("Conversion completed successfully: " ++ e.outputFile)]
                | (evs, false) => evs
              else
                [Event.finished false
                  "Output driver does not support Create or CreateCopy methods."]
          | .GPU =>
            [Event.log "Processing mode: GPU",
              Event.log "GPU processing is not yet implemented.",
              Event.finished false "GPU processing is not yet implemented."])

/-- The creation strategies (spec §4.1). -/
inductive CreationStrategy where
  | fullControlCreate
  | streamingCopyCreate
  | unsupported
deriving DecidableEq, Repr

/-- Strategy selection of `Worker::process` (lines 92-125): Create wins
whenever `GDAL_DCAP_CREATE` is advertised, else CreateCopy when
`GDAL_DCAP_CREATECOPY` is advertised, else the job is unsupported. -/
def selectStrategy (createSupported createCopySupported : Bool) : CreationStrategy :=
  if createSupported then .fullControlCreate
  else if createCopySupported then .streamingCopyCreate
  else .unsupported

/-- ETA computation of `MainWindow::updateProgress` (lines 713-739): for a
fraction in (0,1] the code computes `qint64(elapsed / progress) - elapsed`
(the cast truncates the non-negative quotient, hence a floor); for any
other fraction the label shows the "ETA: Calculating..." placeholder,
modelled as `none`. -/
def etaRemaining (elapsedMillis : Nat) (progress : ℚ) : Option ℤ :=
  if 0 < progress ∧ progress ≤ 1 then
    some (⌊(elapsedMillis : ℚ) / progress⌋ - elapsedMillis)
  else
    none

def isFinishedEv : Event → Bool
  | .finished _ _ => true
  | _ => false

def isWriteEv : Event → Bool
  | .destWriteTile _ _ => true
  | _ => false

def isCopyEv : Event → Bool
  | .copyViaDriver => true
  | _ => false

def isLookupEv : Event → Bool
  | .driverLookup => true
  | _ => false

def isCreateEv : Event → Bool
  | .destCreate => true
  | _ => false

/-- The progress fractions of a trace, in emission order. -/
def progressValues (evs : List Event) : List ℚ :=
  evs.filterMap fun ev => match ev with
    | .progress q => some q
    | _ => none

/-- The trace ends with its unique finished signal and nothing follows it. -/
def endsWithFinished (evs : List Event) : Prop :=
  ∃ pre b msg, evs = pre ++ [Event.finished b msg] ∧ pre.countP isFinishedEv = 0

/-! ### Claim C5: the ETA computation -/

/-- Counterexample to the exact ETA formula: at elapsed = 100 ms and
fraction 3/7 the code shows 133 ms (truncated), but
`elapsed × (1/fraction − 1) = 400/3`. -/
theorem eta_formula_counterexample :
    etaRemaining 100 (3 / 7) = some 133
    ∧ ((133 : ℚ) ≠ (100 : ℚ) * (1 / (3 / 7 : ℚ) - 1)) := by
  constructor
  · unfold etaRemaining
    rw [if_pos (by norm_num : (0 : ℚ) < 3 / 7 ∧ (3 / 7 : ℚ) ≤ 1)]
    rw [show ((100 : ℕ) : ℚ) / (3 / 7) = 700 / 3 by norm_num]
    norm_num [Int.floor_eq_iff]
  · norm_num

/-- Claim C5 (amended): for a fraction in (0,1] the estimate equals the
floor of `elapsedMillis × (1/fraction − 1)` (the `qint64` cast truncates
the quotient to whole milliseconds) and is non-negative; for a fraction
≤ 0 or > 1 the placeholder is shown.  The estimate is a pure function of
the current elapsed time and fraction, recomputed at every update. -/
theorem eta_estimate (elapsedMillis : Nat) (f : ℚ) :
    (0 < f → f ≤ 1 →
      etaRemaining elapsedMillis f = some ⌊(elapsedMillis : ℚ) * (1 / f - 1)⌋
      ∧ ∀ v, etaRemaining elapsedMillis f = some v → 0 ≤ v)
    ∧ ((f ≤ 0 ∨ 1 < f) → etaRemaining elapsedMillis f = none) := by
  constructor
  · intro hf0 hf1
    have hmain : etaRemaining elapsedMillis f
        = some (⌊(elapsedMillis : ℚ) / f⌋ - elapsedMillis) := by
      unfold etaRemaining
      rw [if_pos ⟨hf0, hf1⟩]
    have hfloor : ⌊(elapsedMillis : ℚ) * (1 / f - 1)⌋
        = ⌊(elapsedMillis : ℚ) / f⌋ - elapsedMillis := by
      have hexpr : (elapsedMillis : ℚ) * (1 / f - 1)
          = (elapsedMillis : ℚ) / f - (elapsedMillis : Nat) := by
        push_cast
        ring
      rw [hexpr, Int.floor_sub_nat]
    have hnonneg : 0 ≤ ⌊(elapsedMillis : ℚ) / f⌋ - (elapsedMillis : ℤ) := by
      have hle : ((elapsedMillis : ℤ) : ℚ) ≤ (elapsedMillis : ℚ) / f := by
        push_cast
        rw [le_div_iff₀ hf0]
        calc (elapsedMillis : ℚ) * f ≤ (elapsedMillis : ℚ) * 1 :=
              mul_le_mul_of_nonneg_left hf1 (by positivity)
          _ = (elapsedMillis : ℚ) := mul_one _
      have hfl := Int.le_floor.mpr hle
      omega
    refine ⟨by rw [hmain, hfloor], fun v hv => ?_⟩
    rw [hmain, Option.some_inj] at hv
    omega
  · intro h
    unfold etaRemaining
    rw [if_neg]
    rintro ⟨h0, h1⟩
    rcases h with h | h
    · exact absurd h0 (not_lt.mpr h)
    · exact absurd h1 (not_le.mpr h)

/-- Witness for the ETA theorem at elapsed = 100 ms, fractions 1/2 and 2. -/
theorem eta_estimate_witness :
    etaRemaining 100 (1 / 2) = some ⌊(100 : ℚ) * (1 / (1 / 2 : ℚ) - 1)⌋
    ∧ etaRemaining 100 2 = none :=
  ⟨((eta_estimate 100 (1 / 2)).1 (by norm_num) (by norm_num)).1,
    (eta_estimate 100 2).2 (Or.inr (by norm_num))⟩

/-! ### Claims C8 and C9: failures before the destination is touched -/

/-- The option-setting log events never satisfy a predicate that is false
on all log events. -/
lemma countP_option_logs (p : Event → Bool) (hp : ∀ s, p (Event.log s) = false)
    (opts : List (String × String)) :
    (opts.map fun q =>
      Event.log ("Setting GDAL option: " ++ q.1 ++ " = " ++ q.2)).countP p = 0 := by
  rw [List.countP_eq_zero]
  intro a ha
  obtain ⟨q, _, rfl⟩ := List.mem_map.mp ha
  simp [hp]

/-- Claim C8: a job whose source cannot be opened terminates immediately
with the open failure carrying the last GDAL diagnostic; the destination
driver is never looked up and the destination is never created, written
or copied to. -/
theorem open_failure_stops_job (e : Env) (mode : ProcessingMode) (n : Nat)
    (h : e.source = none) :
    process e mode n = [Event.log "Starting GDAL conversion...",
      Event.finished false ("Failed to open input file: " ++ e.inputFile
        ++ "\nGDAL Error: " ++ e.lastErr)]
    ∧ (process e mode n).countP isLookupEv = 0
    ∧ (process e mode n).countP isCreateEv = 0
    ∧ (process e mode n).countP isWriteEv = 0
    ∧ (process e mode n).countP isCopyEv = 0 := by
  have h1 : process e mode n = [Event.log "Starting GDAL conversion...",
      Event.finished false ("Failed to open input file: " ++ e.inputFile
        ++ "\nGDAL Error: " ++ e.lastErr)] := by
    unfold process
    rw [h]
  refine ⟨h1, ?_, ?_, ?_, ?_⟩ <;> rw [h1] <;> rfl

/-- A concrete environment whose source path cannot be opened. -/
def noSourceEnv : Env :=
  { source := none, driverExists := true, driverCreate := true,
    driverCreateCopy := true, createOk := true, copyOk := true,
    readOk := fun _ _ _ => true, writeOk := fun _ _ _ => true,
    flag := fun _ => true, copyProgress := [],
    lastErr := "No such file or directory", inputFile := "missing.tif",
    outputFile := "out.tif", outputDriverName := "GTiff", options := [] }

/-- Witness for the open-failure theorem on a concrete environment. -/
theorem open_failure_stops_job_witness :
    noSourceEnv.source = none
    ∧ process noSourceEnv .CPU 4 = [Event.log "Starting GDAL conversion...",
        Event.finished false ("Failed to open input file: " ++ noSourceEnv.inputFile
          ++ "\nGDAL Error: " ++ noSourceEnv.lastErr)]
    ∧ (process noSourceEnv .CPU 4).countP isLookupEv = 0 :=
  ⟨rfl, (open_failure_stops_job noSourceEnv .CPU 4 rfl).1,
    (open_failure_stops_job noSourceEnv .CPU 4 rfl).2.1⟩

/-- Claim C9: on the Create path a source with zero raster bands fails
with the no-bands message before the destination dataset is created; no
destination create or write ever happens. -/
theorem zero_bands_failure (e : Env) (n : Nat) (ds : Dataset)
    (hs : e.source = some ds) (hb : ds.bands = 0)
    (hd : e.driverExists = true) (hc : e.driverCreate = true) :
    process e .CPU n
      = (Event.log "Starting GDAL conversion..."
          :: Event.log "Input file opened successfully."
          :: Event.driverLookup
          :: Event.log ("Output driver found: " ++ e.outputDriverName)
          :: ((e.options.map fun p =>
                Event.log ("Setting GDAL option: " ++ p.1 ++ " = " ++ p.2))
            ++ [Event.log "Processing mode: CPU", Event.log "Using Create method.",
                Event.finished false "Input dataset has no raster bands."]))
    ∧ (process e .CPU n).countP isCreateEv = 0
    ∧ (process e .CPU n).countP isWriteEv = 0 := by
  have h1 : process e .CPU n
      = (Event.log "Starting GDAL conversion..."
          :: Event.log "Input file opened successfully."
          :: Event.driverLookup
          :: Event.log ("Output driver found: " ++ e.outputDriverName)
          :: ((e.options.map fun p =>
                Event.log ("Setting GDAL option: " ++ p.1 ++ " = " ++ p.2))
            ++ [Event.log "Processing mode: CPU", Event.log "Using Create method.",
                Event.finished false "Input dataset has no raster bands."])) := by
    unfold process processWithCreateMethod
    simp [hs, hd, hc, hb]
  refine ⟨h1, ?_, ?_⟩
  · rw [h1]
    simp [List.countP_cons, List.countP_append, isCreateEv,
      countP_option_logs isCreateEv fun _ => rfl]
  · rw [h1]
    simp [List.countP_cons, List.countP_append, isWriteEv,
      countP_option_logs isWriteEv fun _ => rfl]

/-- A concrete environment whose source dataset has zero bands. -/
def zeroBandsEnv : Env :=
  { source := some ⟨600, 400, 0⟩, driverExists := true, driverCreate := true,
    driverCreateCopy := true, createOk := true, copyOk := true,
    readOk := fun _ _ _ => true, writeOk := fun _ _ _ => true,
    flag := fun _ => true, copyProgress := [], lastErr := "",
    inputFile := "in.tif", outputFile := "out.tif",
    outputDriverName := "GTiff", options := [] }

/-- Witness for the zero-bands theorem on a concrete environment. -/
theorem zero_bands_failure_witness :
    (process zeroBandsEnv .CPU 2).countP isCreateEv = 0
    ∧ (process zeroBandsEnv .CPU 2).countP isWriteEv = 0 :=
  ⟨(zero_bands_failure zeroBandsEnv 2 ⟨600, 400, 0⟩ rfl rfl rfl rfl).2.1,
    (zero_bands_failure zeroBandsEnv 2 ⟨600, 400, 0⟩ rfl rfl rfl rfl).2.2⟩

/-! ### General trace lemmas for the block loops -/

/-- The inner loop emits exactly one finished signal, as its last event,
iff it exits with `.failed`; otherwise it emits none. -/
lemma runRow_finished (e : Env) (y nBands total : Nat) :
    ∀ (xs : List Nat) (poll completed : Nat) evs r poll' completed',
    runRow e y nBands total xs poll completed = (evs, r, poll', completed') →
    (r = .failed →
      ∃ pre msg, evs = pre ++ [Event.finished false msg]
        ∧ pre.countP isFinishedEv = 0)
    ∧ (r ≠ .failed → evs.countP isFinishedEv = 0) := by
  intro xs
  induction xs with
  | nil =>
      intro poll completed evs r poll' completed' heq
      simp only [runRow, Prod.mk.injEq] at heq
      obtain ⟨rfl, rfl, rfl, rfl⟩ := heq
      exact ⟨fun h => (nomatch h), fun _ => rfl⟩
  | cons x xs ih =>
      intro poll completed evs r poll' completed' heq
      by_cases hf : e.flag poll
      · by_cases hr : tileReadOk e x y nBands
        · by_cases hm : e.flag (poll + 1)
          · by_cases hw : tileWriteOk e x y nBands
            · rcases hrec : runRow e y nBands total xs (poll + 2) (completed + 1)
                with ⟨evs0, r0, poll0, completed0⟩
              simp only [runRow, hf, hr, hm, hw, if_true, hrec, Prod.mk.injEq] at heq
              obtain ⟨rfl, rfl, rfl, rfl⟩ := heq
              have ih' := ih (poll + 2) (completed + 1) evs0 r0 poll0 completed0 hrec
              constructor
              · intro hfail
                obtain ⟨pre, msg, hpre, hcnt⟩ := ih'.1 hfail
                exact ⟨Event.destWriteTile x y ::
                    Event.progress (((completed + 1 : Nat) : ℚ) / (total : ℚ)) :: pre,
                  msg, by simp [hpre], by simp [List.countP_cons, isFinishedEv, hcnt]⟩
              · intro hok
                simp [List.countP_cons, isFinishedEv, ih'.2 hok]
            · simp only [runRow, hf, hr, hm, hw, if_true, if_false,
                Prod.mk.injEq] at heq
              obtain ⟨rfl, rfl, rfl, rfl⟩ := heq
              refine ⟨fun _ => ⟨[], writeErrMsg e, rfl, rfl⟩, fun h => absurd rfl h⟩
          · simp only [runRow, hf, hr, hm, if_true, if_false, Prod.mk.injEq] at heq
            obtain ⟨rfl, rfl, rfl, rfl⟩ := heq
            refine ⟨fun _ => ⟨[], cancelMsg, rfl, rfl⟩, fun h => absurd rfl h⟩
        · simp only [runRow, hf, hr, if_true, if_false, Prod.mk.injEq] at heq
          obtain ⟨rfl, rfl, rfl, rfl⟩ := heq
          refine ⟨fun _ => ⟨[], readErrMsg e, rfl, rfl⟩, fun h => absurd rfl h⟩
      · simp only [runRow, hf, if_false, Prod.mk.injEq] at heq
        obtain ⟨rfl, rfl, rfl, rfl⟩ := heq
        exact ⟨fun h => (nomatch h), fun _ => rfl⟩

/-- The outer loop emits exactly one finished signal, as its last event,
iff `processData` returns false from inside it; otherwise none. -/
lemma runRows_finished (e : Env) (W nBands total : Nat) :
    ∀ (ys : List Nat) (poll completed : Nat) evs b poll' completed',
    runRows e W nBands total ys poll completed = (evs, b, poll', completed') →
    (b = false →
      ∃ pre msg, evs = pre ++ [Event.finished false msg]
        ∧ pre.countP isFinishedEv = 0)
    ∧ (b = true → evs.countP isFinishedEv = 0) := by
  intro ys
  induction ys with
  | nil =>
      intro poll completed evs b poll' completed' heq
      simp only [runRows, Prod.mk.injEq] at heq
      obtain ⟨rfl, rfl, rfl, rfl⟩ := heq
      exact ⟨fun h => (nomatch h), fun _ => rfl⟩
  | cons y ys ih =>
      intro poll completed evs b poll' completed' heq
      by_cases hf : e.flag poll
      · rcases hrow : runRow e y nBands total (tileStarts 0 W) (poll + 1) completed
          with ⟨evs0, r0, poll0, completed0⟩
        have hrowlem := runRow_finished e y nBands total (tileStarts 0 W)
          (poll + 1) completed evs0 r0 poll0 completed0 hrow
        cases r0 with
        | failed =>
            simp only [runRows, hf, if_true, hrow, Prod.mk.injEq] at heq
            obtain ⟨rfl, rfl, rfl, rfl⟩ := heq
            exact ⟨fun _ => hrowlem.1 rfl, fun h => (nomatch h)⟩
        | ok =>
            rcases hrest : runRows e W nBands total ys poll0 completed0
              with ⟨evs2, b2, poll2, completed2⟩
            simp only [runRows, hf, if_true, hrow, hrest, Prod.mk.injEq] at heq
            obtain ⟨rfl, rfl, rfl, rfl⟩ := heq
            have ih' := ih poll0 completed0 evs2 b2 poll2 completed2 hrest
            have hcnt0 : evs0.countP isFinishedEv = 0 := hrowlem.2 (by simp)
            constructor
            · intro hb
              obtain ⟨pre, msg, hpre, hcnt⟩ := ih'.1 hb
              exact ⟨evs0 ++ pre, msg, by simp [hpre],
                by simp [List.countP_append, hcnt0, hcnt]⟩
            · intro hb
              simp [List.countP_append, hcnt0, ih'.2 hb]
        | cancelBreak =>
            rcases hrest : runRows e W nBands total ys poll0 completed0
              with ⟨evs2, b2, poll2, completed2⟩
            simp only [runRows, hf, if_true, hrow, hrest, Prod.mk.injEq] at heq
            obtain ⟨rfl, rfl, rfl, rfl⟩ := heq
            have ih' := ih poll0 completed0 evs2 b2 poll2 completed2 hrest
            have hcnt0 : evs0.countP isFinishedEv = 0 := hrowlem.2 (by simp)
            constructor
            · intro hb
              obtain ⟨pre, msg, hpre, hcnt⟩ := ih'.1 hb
              exact ⟨evs0 ++ pre, msg, by simp [hpre],
                by simp [List.countP_append, hcnt0, hcnt]⟩
            · intro hb
              simp [List.countP_append, hcnt0, ih'.2 hb]
      · simp only [runRows, hf, if_false, Prod.mk.injEq] at heq
        obtain ⟨rfl, rfl, rfl, rfl⟩ := heq
        exact ⟨fun h => (nomatch h), fun _ => rfl⟩

lemma progressValues_nil : progressValues [] = [] := rfl

lemma progressValues_cons_write (a b : Nat) (l : List Event) :
    progressValues (Event.destWriteTile a b :: l) = progressValues l := rfl

lemma progressValues_cons_progress (q : ℚ) (l : List Event) :
    progressValues (Event.progress q :: l) = q :: progressValues l := rfl

lemma progressValues_cons_log (msg : String) (l : List Event) :
    progressValues (Event.log msg :: l) = progressValues l := rfl

lemma progressValues_cons_finished (b : Bool) (msg : String) (l : List Event) :
    progressValues (Event.finished b msg :: l) = progressValues l := rfl

lemma progressValues_append (l1 l2 : List Event) :
    progressValues (l1 ++ l2) = progressValues l1 ++ progressValues l2 :=
  List.filterMap_append l1 l2 _

/-- Inner loop: no events other than tile writes, progress updates and a
possible final finished signal. -/
lemma runRow_countP (e : Env) (y nBands total : Nat) (p : Event → Bool)
    (hw : ∀ a b, p (Event.destWriteTile a b) = false)
    (hq : ∀ q, p (Event.progress q) = false)
    (hfin : ∀ b m, p (Event.finished b m) = false) :
    ∀ (xs : List Nat) (poll completed : Nat) evs r poll' completed',
    runRow e y nBands total xs poll completed = (evs, r, poll', completed') →
    evs.countP p = 0 := by
  intro xs
  induction xs with
  | nil =>
      intro poll completed evs r poll' completed' heq
      simp only [runRow, Prod.mk.injEq] at heq
      obtain ⟨rfl, rfl, rfl, rfl⟩ := heq
      rfl
  | cons x xs ih =>
      intro poll completed evs r poll' completed' heq
      by_cases hf : e.flag poll
      · by_cases hr : tileReadOk e x y nBands
        · by_cases hm : e.flag (poll + 1)
          · by_cases hwt : tileWriteOk e x y nBands
            · rcases hrec : runRow e y nBands total xs (poll + 2) (completed + 1)
                with ⟨evs0, r0, poll0, completed0⟩
              simp only [runRow, hf, hr, hm, hwt, if_true, hrec, Prod.mk.injEq] at heq
              obtain ⟨rfl, rfl, rfl, rfl⟩ := heq
              simp [List.countP_cons, hw, hq,
                ih (poll + 2) (completed + 1) evs0 r0 poll0 completed0 hrec]
            · simp only [runRow, hf, hr, hm, hwt, if_true, if_false,
                Prod.mk.injEq] at heq
              obtain ⟨rfl, rfl, rfl, rfl⟩ := heq
              simp [List.countP_cons, hfin]
          · simp only [runRow, hf, hr, hm, if_true, if_false, Prod.mk.injEq] at heq
            obtain ⟨rfl, rfl, rfl, rfl⟩ := heq
            simp [List.countP_cons, hfin]
        · simp only [runRow, hf, hr, if_true, if_false, Prod.mk.injEq] at heq
          obtain ⟨rfl, rfl, rfl, rfl⟩ := heq
          simp [List.countP_cons, hfin]
      · simp only [runRow, hf, if_false, Prod.mk.injEq] at heq
        obtain ⟨rfl, rfl, rfl, rfl⟩ := heq
        rfl

/-- Outer loop: no events other than tile writes, progress updates and a
possible final finished signal. -/
lemma runRows_countP (e : Env) (W nBands total : Nat) (p : Event → Bool)
    (hw : ∀ a b, p (Event.destWriteTile a b) = false)
    (hq : ∀ q, p (Event.progress q) = false)
    (hfin : ∀ b m, p (Event.finished b m) = false) :
    ∀ (ys : List Nat) (poll completed : Nat) evs b poll' completed',
    runRows e W nBands total ys poll completed = (evs, b, poll', completed') →
    evs.countP p = 0 := by
  intro ys
  induction ys with
  | nil =>
      intro poll completed evs b poll' completed' heq
      simp only [runRows, Prod.mk.injEq] at heq
      obtain ⟨rfl, rfl, rfl, rfl⟩ := heq
      rfl
  | cons y ys ih =>
      intro poll completed evs b poll' completed' heq
      by_cases hf : e.flag poll
      · rcases hrow : runRow e y nBands total (tileStarts 0 W) (poll + 1) completed
          with ⟨evs0, r0, poll0, completed0⟩
        have hcnt0 := runRow_countP e y nBands total p hw hq hfin
          (tileStarts 0 W) (poll + 1) completed evs0 r0 poll0 completed0 hrow
        cases r0 with
        | failed =>
            simp only [runRows, hf, if_true, hrow, Prod.mk.injEq] at heq
            obtain ⟨rfl, rfl, rfl, rfl⟩ := heq
            exact hcnt0
        | ok =>
            rcases hrest : runRows e W nBands total ys poll0 completed0
              with ⟨evs2, b2, poll2, completed2⟩
            simp only [runRows, hf, if_true, hrow, hrest, Prod.mk.injEq] at heq
            obtain ⟨rfl, rfl, rfl, rfl⟩ := heq
            simp [List.countP_append, hcnt0,
              ih poll0 completed0 evs2 b2 poll2 completed2 hrest]
        | cancelBreak =>
            rcases hrest : runRows e W nBands total ys poll0 completed0
              with ⟨evs2, b2, poll2, completed2⟩
            simp only [runRows, hf, if_true, hrow, hrest, Prod.mk.injEq] at heq
            obtain ⟨rfl, rfl, rfl, rfl⟩ := heq
            simp [List.countP_append, hcnt0,
              ih poll0 completed0 evs2 b2 poll2 completed2 hrest]
      · simp only [runRows, hf, if_false, Prod.mk.injEq] at heq
        obtain ⟨rfl, rfl, rfl, rfl⟩ := heq
        rfl

/-- Inner loop: the progress fractions are consecutive counter values over
the total, one per committed tile. -/
lemma runRow_progress (e : Env) (y nBands total : Nat) :
    ∀ (xs : List Nat) (poll completed : Nat) evs r poll' completed',
    runRow e y nBands total xs poll completed = (evs, r, poll', completed') →
    ∃ m, m ≤ xs.length
      ∧ progressValues evs
          = (List.range m).map (fun j => ((completed + j + 1 : Nat) : ℚ) / (total : ℚ))
      ∧ completed' = completed + m := by
  intro xs
  induction xs with
  | nil =>
      intro poll completed evs r poll' completed' heq
      simp only [runRow, Prod.mk.injEq] at heq
      obtain ⟨rfl, rfl, rfl, rfl⟩ := heq
      exact ⟨0, by simp, by simp [progressValues_nil], by omega⟩
  | cons x xs ih =>
      intro poll completed evs r poll' completed' heq
      by_cases hf : e.flag poll
      · by_cases hr : tileReadOk e x y nBands
        · by_cases hm : e.flag (poll + 1)
          · by_cases hwt : tileWriteOk e x y nBands
            · rcases hrec : runRow e y nBands total xs (poll + 2) (completed + 1)
                with ⟨evs0, r0, poll0, completed0⟩
              simp only [runRow, hf, hr, hm, hwt, if_true, hrec, Prod.mk.injEq] at heq
              obtain ⟨rfl, rfl, rfl, rfl⟩ := heq
              obtain ⟨m0, hm0, hpv, hc⟩ :=
                ih (poll + 2) (completed + 1) evs0 r0 poll0 completed0 hrec
              refine ⟨m0 + 1, by simp; omega, ?_, by omega⟩
              rw [progressValues_cons_write, progressValues_cons_progress, hpv]
              rw [List.range_succ_eq_map, List.map_cons, List.map_map]
              refine List.cons_eq_cons.mpr ⟨?_, ?_⟩
              · exact congrArg (fun n : ℕ => (n : ℚ) / (total : ℚ)) (by omega)
              · apply List.map_congr_left
                intro a _
                simp only [Function.comp_apply]
                exact congrArg (fun n : ℕ => (n : ℚ) / (total : ℚ)) (by omega)
            · simp only [runRow, hf, hr, hm, hwt, if_true, if_false,
                Prod.mk.injEq] at heq
              obtain ⟨rfl, rfl, rfl, rfl⟩ := heq
              exact ⟨0, by simp, by simp [progressValues_cons_finished,
                progressValues_nil], by omega⟩
          · simp only [runRow, hf, hr, hm, if_true, if_false, Prod.mk.injEq] at heq
            obtain ⟨rfl, rfl, rfl, rfl⟩ := heq
            exact ⟨0, by simp, by simp [progressValues_cons_finished,
              progressValues_nil], by omega⟩
        · simp only [runRow, hf, hr, if_true, if_false, Prod.mk.injEq] at heq
          obtain ⟨rfl, rfl, rfl, rfl⟩ := heq
          exact ⟨0, by simp, by simp [progressValues_cons_finished,
            progressValues_nil], by omega⟩
      · simp only [runRow, hf, if_false, Prod.mk.injEq] at heq
        obtain ⟨rfl, rfl, rfl, rfl⟩ := heq
        exact ⟨0, by simp, by simp [progressValues_nil], by omega⟩

/-- Outer loop: the progress fractions are consecutive counter values over
the total, bounded by the number of enumerated tiles. -/
lemma runRows_progress (e : Env) (W nBands total : Nat) :
    ∀ (ys : List Nat) (poll completed : Nat) evs b poll' completed',
    runRows e W nBands total ys poll completed = (evs, b, poll', completed') →
    ∃ m, m ≤ ys.length * (tileStarts 0 W).length
      ∧ progressValues evs
          = (List.range m).map (fun j => ((completed + j + 1 : Nat) : ℚ) / (total : ℚ))
      ∧ completed' = completed + m := by
  intro ys
  induction ys with
  | nil =>
      intro poll completed evs b poll' completed' heq
      simp only [runRows, Prod.mk.injEq] at heq
      obtain ⟨rfl, rfl, rfl, rfl⟩ := heq
      exact ⟨0, by simp, by simp [progressValues_nil], by omega⟩
  | cons y ys ih =>
      intro poll completed evs b poll' completed' heq
      by_cases hf : e.flag poll
      · rcases hrow : runRow e y nBands total (tileStarts 0 W) (poll + 1) completed
          with ⟨evs0, r0, poll0, completed0⟩
        obtain ⟨m1, hm1, hpv1, hc1⟩ := runRow_progress e y nBands total
          (tileStarts 0 W) (poll + 1) completed evs0 r0 poll0 completed0 hrow
        cases r0 with
        | failed =>
            simp only [runRows, hf, if_true, hrow, Prod.mk.injEq] at heq
            obtain ⟨rfl, rfl, rfl, rfl⟩ := heq
            refine ⟨m1, ?_, hpv1, hc1⟩
            calc m1 ≤ (tileStarts 0 W).length := hm1
              _ ≤ (tileStarts 0 W).length + ys.length * (tileStarts 0 W).length :=
                  Nat.le_add_right _ _
              _ = (y :: ys).length * (tileStarts 0 W).length := by
                  simp [List.length_cons]; ring
        | ok =>
            rcases hrest : runRows e W nBands total ys poll0 completed0
              with ⟨evs2, b2, poll2, completed2⟩
            simp only [runRows, hf, if_true, hrow, hrest, Prod.mk.injEq] at heq
            obtain ⟨rfl, rfl, rfl, rfl⟩ := heq
            obtain ⟨m2, hm2, hpv2, hc2⟩ :=
              ih poll0 completed0 evs2 b2 poll2 completed2 hrest
            refine ⟨m1 + m2, ?_, ?_, by omega⟩
            · calc m1 + m2
                  ≤ (tileStarts 0 W).length + ys.length * (tileStarts 0 W).length :=
                    Nat.add_le_add hm1 hm2
                _ = (y :: ys).length * (tileStarts 0 W).length := by
                    simp [List.length_cons]; ring
            · rw [progressValues_append, hpv1, hpv2, hc1, List.range_add,
                List.map_append, List.map_map]
              congr 1
              apply List.map_congr_left
              intro a _
              simp only [Function.comp_apply]
              exact congrArg (fun n : ℕ => (n : ℚ) / (total : ℚ)) (by omega)
        | cancelBreak =>
            rcases hrest : runRows e W nBands total ys poll0 completed0
              with ⟨evs2, b2, poll2, completed2⟩
            simp only [runRows, hf, if_true, hrow, hrest, Prod.mk.injEq] at heq
            obtain ⟨rfl, rfl, rfl, rfl⟩ := heq
            obtain ⟨m2, hm2, hpv2, hc2⟩ :=
              ih poll0 completed0 evs2 b2 poll2 completed2 hrest
            refine ⟨m1 + m2, ?_, ?_, by omega⟩
            · calc m1 + m2
                  ≤ (tileStarts 0 W).length + ys.length * (tileStarts 0 W).length :=
                    Nat.add_le_add hm1 hm2
                _ = (y :: ys).length * (tileStarts 0 W).length := by
                    simp [List.length_cons]; ring
            · rw [progressValues_append, hpv1, hpv2, hc1, List.range_add,
                List.map_append, List.map_map]
              congr 1
              apply List.map_congr_left
              intro a _
              simp only [Function.comp_apply]
              exact congrArg (fun n : ℕ => (n : ℚ) / (total : ℚ)) (by omega)
      · simp only [runRows, hf, if_false, Prod.mk.injEq] at heq
        obtain ⟨rfl, rfl, rfl, rfl⟩ := heq
        exact ⟨0, by simp, by simp [progressValues_nil], by omega⟩

/-- The driver-copy loop forwards a prefix of the driver-supplied fraction
sequence, and nothing else. -/
lemma runCopy_shape (e : Env) :
    ∀ (qs : List ℚ) (poll : Nat) evs ok poll',
    runCopy e qs poll = (evs, ok, poll') →
    ∃ m, evs = (qs.take m).map Event.progress := by
  intro qs
  induction qs with
  | nil =>
      intro poll evs ok poll' heq
      simp only [runCopy, Prod.mk.injEq] at heq
      obtain ⟨rfl, rfl, rfl⟩ := heq
      exact ⟨0, by simp⟩
  | cons q qs ih =>
      intro poll evs ok poll' heq
      by_cases hf : e.flag poll
      · rcases hrec : runCopy e qs (poll + 1) with ⟨evs0, ok0, poll0⟩
        simp only [runCopy, hf, if_true, hrec, Prod.mk.injEq] at heq
        obtain ⟨rfl, rfl, rfl⟩ := heq
        obtain ⟨m, hm⟩ := ih (poll + 1) evs0 ok0 poll0 hrec
        exact ⟨m + 1, by simp [hm]⟩
      · simp only [runCopy, hf, if_false, Prod.mk.injEq] at heq
        obtain ⟨rfl, rfl, rfl⟩ := heq
        exact ⟨0, by simp⟩

/-! ### Terminal-signal lemmas (claim C6 groundwork) -/

lemma endsWithFinished_single (b : Bool) (msg : String) :
    endsWithFinished [Event.finished b msg] :=
  ⟨[], b, msg, rfl, rfl⟩

lemma endsWithFinished_cons (ev : Event) (h : isFinishedEv ev = false)
    (l : List Event) (hl : endsWithFinished l) : endsWithFinished (ev :: l) := by
  obtain ⟨pre, b, msg, h1, h2⟩ := hl
  exact ⟨ev :: pre, b, msg, by simp [h1], by simp [List.countP_cons, h, h2]⟩

lemma endsWithFinished_cons_log (msg : String) (l : List Event)
    (hl : endsWithFinished l) : endsWithFinished (Event.log msg :: l) :=
  endsWithFinished_cons (Event.log msg) rfl l hl

lemma endsWithFinished_cons_lookup (l : List Event)
    (hl : endsWithFinished l) : endsWithFinished (Event.driverLookup :: l) :=
  endsWithFinished_cons Event.driverLookup rfl l hl

lemma endsWithFinished_append (l1 : List Event) (h : l1.countP isFinishedEv = 0)
    (l2 : List Event) (hl : endsWithFinished l2) : endsWithFinished (l1 ++ l2) := by
  obtain ⟨pre, b, msg, h1, h2⟩ := hl
  exact ⟨l1 ++ pre, b, msg, by rw [h1, List.append_assoc],
    by simp [List.countP_append, h, h2]⟩

/-- `processData` emits exactly one finished signal, as its last event,
iff it returns false; none otherwise. -/
lemma processData_finished (e : Env) (ds : Dataset) (numCores : Nat) :
    ∀ evs b, processData e ds numCores = (evs, b) →
    (b = false → ∃ pre msg, evs = pre ++ [Event.finished false msg]
      ∧ pre.countP isFinishedEv = 0)
    ∧ (b = true → evs.countP isFinishedEv = 0) := by
  intro evs b heq
  rcases hrows : runRows e ds.xSize ds.bands (nBlocks ds.xSize * nBlocks ds.ySize)
      (tileStarts 0 ds.ySize) 0 0 with ⟨evs0, b0, poll0, c0⟩
  have hlem := runRows_finished e ds.xSize ds.bands
    (nBlocks ds.xSize * nBlocks ds.ySize) (tileStarts 0 ds.ySize) 0 0
    evs0 b0 poll0 c0 hrows
  simp only [processData, hrows] at heq
  cases b0 with
  | false =>
      simp only [Bool.false_eq_true, if_false, Prod.mk.injEq] at heq
      obtain ⟨rfl, rfl⟩ := heq
      refine ⟨fun _ => ?_, fun h => (nomatch h)⟩
      obtain ⟨pre, msg, hpre, hcnt⟩ := hlem.1 rfl
      exact ⟨Event.log ("Starting block processing using " ++ toString numCores
          ++ " core(s)...") :: pre, msg, by simp [hpre],
        by simp [List.countP_cons, isFinishedEv, hcnt]⟩
  | true =>
      have hcnt0 : evs0.countP isFinishedEv = 0 := hlem.2 rfl
      by_cases hfl : e.flag poll0
      · simp only [if_true, hfl, Prod.mk.injEq] at heq
        obtain ⟨rfl, rfl⟩ := heq
        refine ⟨fun h => (nomatch h), fun _ => ?_⟩
        simp [List.countP_cons, List.countP_append, isFinishedEv, hcnt0]
      · simp only [hfl, if_false, Prod.mk.injEq] at heq
        obtain ⟨rfl, rfl⟩ := heq
        refine ⟨fun _ => ?_, fun h => (nomatch h)⟩
        exact ⟨Event.log ("Starting block processing using " ++ toString numCores
            ++ " core(s)...") :: evs0, cancelMsg, by simp,
          by simp [List.countP_cons, isFinishedEv, hcnt0]⟩

/-- `processWithCreateMethod` emits exactly one finished signal, last,
iff it returns false; none otherwise. -/
lemma processWithCreateMethod_finished (e : Env) (ds : Dataset) (numCores : Nat) :
    ∀ evs b, processWithCreateMethod e ds numCores = (evs, b) →
    (b = false → ∃ pre msg, evs = pre ++ [Event.finished false msg]
      ∧ pre.countP isFinishedEv = 0)
    ∧ (b = true → evs.countP isFinishedEv = 0) := by
  intro evs b heq
  by_cases hb : ds.bands = 0
  · simp only [processWithCreateMethod, hb, if_true, Prod.mk.injEq] at heq
    obtain ⟨rfl, rfl⟩ := heq
    refine ⟨fun _ => ⟨[Event.log "Using Create method."],
      "Input dataset has no raster bands.", rfl, rfl⟩, fun h => (nomatch h)⟩
  · by_cases hc : e.createOk
    · rcases hpd : processData e ds numCores with ⟨evs0, b0⟩
      simp only [processWithCreateMethod, hb, hc, hpd, if_true, if_false,
        Prod.mk.injEq] at heq
      obtain ⟨rfl, rfl⟩ := heq
      have hlem := processData_finished e ds numCores evs0 b0 hpd
      constructor
      · intro hb0
        obtain ⟨pre, msg, hpre, hcnt⟩ := hlem.1 hb0
        exact ⟨Event.log "Using Create method." :: Event.destCreate :: pre, msg,
          by simp [hpre], by simp [List.countP_cons, isFinishedEv, hcnt]⟩
      · intro hb0
        simp [List.countP_cons, isFinishedEv, hlem.2 hb0]
    · simp only [processWithCreateMethod, hb, hc, if_true, if_false,
        Prod.mk.injEq] at heq
      obtain ⟨rfl, rfl⟩ := heq
      refine ⟨fun _ => ⟨[Event.log "Using Create method.", Event.destCreate],
        "Failed to create output dataset: " ++ e.outputFile
          ++ "\nGDAL Error: " ++ e.lastErr, rfl, rfl⟩, fun h => (nomatch h)⟩

/-- `processWithCreateCopyMethod` emits exactly one finished signal, last,
iff it returns false; none otherwise. -/
lemma processWithCreateCopyMethod_finished (e : Env) :
    ∀ evs b, processWithCreateCopyMethod e = (evs, b) →
    (b = false → ∃ pre msg, evs = pre ++ [Event.finished false msg]
      ∧ pre.countP isFinishedEv = 0)
    ∧ (b = true → evs.countP isFinishedEv = 0) := by
  intro evs b heq
  rcases hcp : runCopy e e.copyProgress 0 with ⟨evs0, ok0, poll0⟩
  obtain ⟨m, hm⟩ := runCopy_shape e e.copyProgress 0 evs0 ok0 poll0 hcp
  have hcnt0 : evs0.countP isFinishedEv = 0 := by
    rw [hm, List.countP_eq_zero]
    intro a ha
    obtain ⟨q, _, rfl⟩ := List.mem_map.mp ha
    simp [isFinishedEv]
  simp only [processWithCreateCopyMethod, hcp] at heq
  cases ok0 with
  | true =>
      simp only [if_true, Prod.mk.injEq] at heq
      obtain ⟨rfl, rfl⟩ := heq
      refine ⟨fun h => (nomatch h), fun _ => ?_⟩
      simp [List.countP_cons, isFinishedEv, hcnt0]
  | false =>
      simp only [Bool.false_eq_true, if_false, Prod.mk.injEq] at heq
      obtain ⟨rfl, rfl⟩ := heq
      refine ⟨fun _ => ?_, fun h => (nomatch h)⟩
      exact ⟨Event.log "Using CreateCopy method." :: Event.copyViaDriver :: evs0,
        "Failed to create output dataset using CreateCopy: " ++ e.outputFile
          ++ "\nGDAL Error: " ++ e.lastErr, by simp,
        by simp [List.countP_cons, isFinishedEv, hcnt0]⟩

/-- Claim C6: every job, on every execution path (success, any failure,
cancellation, GPU mode), emits exactly one terminal finished signal; it is
the last event of the trace, so every progress and log signal precedes it
and nothing follows it. -/
theorem single_terminal_signal (e : Env) (mode : ProcessingMode) (numCores : Nat) :
    endsWithFinished (process e mode numCores) := by
  rcases hsrc : e.source with _ | ds
  · refine ⟨[Event.log "Starting GDAL conversion..."], false,
      "Failed to open input file: " ++ e.inputFile ++ "\nGDAL Error: " ++ e.lastErr,
      ?_, rfl⟩
    simp [process, hsrc]
  · have hopt : (e.options.map fun p =>
        Event.log ("Setting GDAL option: " ++ p.1 ++ " = " ++ p.2)).countP
          isFinishedEv = 0 :=
      countP_option_logs isFinishedEv (fun _ => rfl) e.options
    simp only [process, hsrc]
    refine endsWithFinished_cons_log _ _ ?_
    by_cases hdrv : e.driverExists = true
    · simp only [hdrv, Bool.not_true, Bool.false_eq_true, if_false]
      refine endsWithFinished_cons_log _ _ ?_
      refine endsWithFinished_cons_lookup _ ?_
      refine endsWithFinished_cons_log _ _ ?_
      refine endsWithFinished_append _ hopt _ ?_
      cases mode with
      | CPU =>
          refine endsWithFinished_cons_log _ _ ?_
          by_cases hcr : e.driverCreate = true
          · rcases hcm : processWithCreateMethod e ds numCores with ⟨evs0, b0⟩
            have hlem := processWithCreateMethod_finished e ds numCores evs0 b0 hcm
            simp only [hcr, if_true, hcm]
            cases b0 with
            | false =>
                obtain ⟨pre, msg, hpre, hcnt⟩ := hlem.1 rfl
                exact ⟨pre, false, msg, hpre, hcnt⟩
            | true =>
                refine endsWithFinished_append _ (hlem.2 rfl) _ ?_
                exact endsWithFinished_cons_log _ _ (endsWithFinished_single _ _)
          · by_cases hcc : e.driverCreateCopy = true
            · rcases hcm : processWithCreateCopyMethod e with ⟨evs0, b0⟩
              have hlem := processWithCreateCopyMethod_finished e evs0 b0 hcm
              simp only [Bool.not_eq_true] at hcr
              simp only [hcr, hcc, Bool.false_eq_true, if_false, if_true, hcm]
              cases b0 with
              | false =>
                  obtain ⟨pre, msg, hpre, hcnt⟩ := hlem.1 rfl
                  exact ⟨pre, false, msg, hpre, hcnt⟩
              | true =>
                  refine endsWithFinished_append _ (hlem.2 rfl) _ ?_
                  exact endsWithFinished_cons_log _ _ (endsWithFinished_single _ _)
            · simp only [Bool.not_eq_true] at hcr hcc
              simp only [hcr, hcc, Bool.false_eq_true, if_false]
              exact endsWithFinished_single _ _
      | GPU =>
          refine endsWithFinished_cons_log _ _ ?_
          refine endsWithFinished_cons_log _ _ ?_
          exact endsWithFinished_single _ _
    · simp only [Bool.not_eq_true] at hdrv
      simp only [hdrv, Bool.not_false, if_true]
      refine endsWithFinished_cons_log _ _ ?_
      refine endsWithFinished_cons_lookup _ ?_
      exact endsWithFinished_single _ _

/-! ### Progress monotonicity (claim C7) -/

lemma progressValues_logs (opts : List (String × String)) :
    progressValues (opts.map fun p =>
      Event.log ("Setting GDAL option: " ++ p.1 ++ " = " ++ p.2)) = [] := by
  rw [progressValues, List.filterMap_eq_nil_iff]
  intro a ha
  obtain ⟨q, _, rfl⟩ := List.mem_map.mp ha
  rfl

lemma chainLe_map_range (g : ℕ → ℚ) (hg : ∀ i, g i ≤ g (i + 1)) :
    ∀ m, List.Chain' (· ≤ ·) ((List.range m).map g) := by
  intro m
  induction m with
  | zero => simp
  | succ m ih =>
      rw [List.range_succ, List.map_append]
      rw [List.chain'_append]
      refine ⟨ih, by simp, ?_⟩
      intro x hx y hy
      cases m with
      | zero => simp at hx
      | succ m =>
          simp only [List.range_succ, List.map_append, List.map_cons, List.map_nil,
            List.getLast?_concat, Option.mem_def, Option.some_inj] at hx
          simp only [List.map_cons, List.map_nil, List.head?_cons,
            Option.mem_def, Option.some_inj] at hy
          subst hx
          subst hy
          exact hg m

/-- Chain and bounds for the tiled-path progress value list. -/
lemma chain_progress_shape (T m : ℕ) (hm : m ≤ T) (tail1 : Bool) :
    List.Chain' (· ≤ ·)
      (((List.range m).map fun j => ((j + 1 : Nat) : ℚ) / ((T : Nat) : ℚ))
        ++ (if tail1 = true then [1] else []))
    ∧ ∀ q ∈ ((List.range m).map fun j => ((j + 1 : Nat) : ℚ) / ((T : Nat) : ℚ))
        ++ (if tail1 = true then [1] else []), 0 ≤ q ∧ q ≤ 1 := by
  rcases Nat.eq_zero_or_pos T with hT | hT
  · subst hT
    have hm0 : m = 0 := by omega
    subst hm0
    cases tail1 <;> simp
  have hTQ : (0 : ℚ) < ((T : Nat) : ℚ) := by exact_mod_cast hT
  constructor
  · rw [List.chain'_append]
    refine ⟨chainLe_map_range _ ?_ m, ?_, ?_⟩
    · intro i
      rw [div_le_div_iff_of_pos_right hTQ]
      exact_mod_cast (show i + 1 ≤ i + 1 + 1 by omega)
    · cases tail1 <;> simp
    · intro x hx y hy
      cases tail1
      · simp at hy
      · simp only [if_true, List.head?_cons, Option.mem_def, Option.some_inj] at hy
        subst hy
        cases m with
        | zero => simp at hx
        | succ m0 =>
            simp only [List.range_succ, List.map_append, List.map_cons, List.map_nil,
              List.getLast?_concat, Option.mem_def, Option.some_inj] at hx
            subst hx
            rw [div_le_one hTQ]
            exact_mod_cast hm
  · intro q hq
    rcases List.mem_append.mp hq with hq | hq
    · obtain ⟨j, hj, rfl⟩ := List.mem_map.mp hq
      have hjm : j < m := List.mem_range.mp hj
      constructor
      · positivity
      · rw [div_le_one hTQ]
        exact_mod_cast (by omega : j + 1 ≤ T)
    · cases tail1
      · simp at hq
      · simp only [if_true, List.mem_singleton] at hq
        subst hq
        exact ⟨by norm_num, le_refl 1⟩

/-- The progress values of `processData`: one fraction `k/total` per
committed tile, in increasing order, followed by the final `1.0` exactly
when the function returns true. -/
lemma processData_progress (e : Env) (ds : Dataset) (numCores : Nat) :
    ∀ evs b, processData e ds numCores = (evs, b) →
    ∃ m, m ≤ nBlocks ds.xSize * nBlocks ds.ySize
      ∧ progressValues evs
          = ((List.range m).map fun j =>
              ((j + 1 : Nat) : ℚ) / ((nBlocks ds.xSize * nBlocks ds.ySize : Nat) : ℚ))
            ++ (if b = true then [1] else []) := by
  intro evs b heq
  rcases hrows : runRows e ds.xSize ds.bands (nBlocks ds.xSize * nBlocks ds.ySize)
      (tileStarts 0 ds.ySize) 0 0 with ⟨evs0, b0, poll0, c0⟩
  obtain ⟨m, hmle, hpv, _⟩ := runRows_progress e ds.xSize ds.bands
    (nBlocks ds.xSize * nBlocks ds.ySize) (tileStarts 0 ds.ySize) 0 0
    evs0 b0 poll0 c0 hrows
  have hmle' : m ≤ nBlocks ds.xSize * nBlocks ds.ySize := by
    calc m ≤ (tileStarts 0 ds.ySize).length * (tileStarts 0 ds.xSize).length := hmle
      _ = nBlocks ds.xSize * nBlocks ds.ySize := by
          rw [tileStarts_length, tileStarts_length]; ring
  have hpv' : progressValues evs0 = (List.range m).map fun j =>
      ((j + 1 : Nat) : ℚ) / ((nBlocks ds.xSize * nBlocks ds.ySize : Nat) : ℚ) := by
    rw [hpv]
    apply List.map_congr_left
    intro a _
    exact congrArg
      (fun n : ℕ => (n : ℚ) / ((nBlocks ds.xSize * nBlocks ds.ySize : Nat) : ℚ))
      (by omega)
  simp only [processData, hrows] at heq
  cases b0 with
  | false =>
      simp only [Bool.false_eq_true, if_false, Prod.mk.injEq] at heq
      obtain ⟨rfl, rfl⟩ := heq
      refine ⟨m, hmle', ?_⟩
      simp [progressValues_cons_log, progressValues_append, hpv',
        progressValues_cons_finished, progressValues_nil]
  | true =>
      by_cases hfl : e.flag poll0
      · simp only [hfl, if_true, Prod.mk.injEq] at heq
        obtain ⟨rfl, rfl⟩ := heq
        refine ⟨m, hmle', ?_⟩
        simp [progressValues_cons_log, progressValues_append, hpv',
          progressValues_cons_progress, progressValues_nil]
      · simp only [hfl, if_false, Prod.mk.injEq] at heq
        obtain ⟨rfl, rfl⟩ := heq
        refine ⟨m, hmle', ?_⟩
        simp [progressValues_cons_log, progressValues_append, hpv',
          progressValues_cons_finished, progressValues_nil]

lemma progressValues_cons_lookup (l : List Event) :
    progressValues (Event.driverLookup :: l) = progressValues l := rfl

lemma progressValues_cons_create (l : List Event) :
    progressValues (Event.destCreate :: l) = progressValues l := rfl

lemma progressValues_cons_copy (l : List Event) :
    progressValues (Event.copyViaDriver :: l) = progressValues l := rfl

lemma progressValues_map_progress (l : List ℚ) :
    progressValues (l.map Event.progress) = l := by
  induction l with
  | nil => rfl
  | cons q l ih => simp [progressValues_cons_progress, ih]

/-- Progress values of the Create path: the tiled shape. -/
lemma processWithCreateMethod_progress (e : Env) (ds : Dataset) (numCores : Nat) :
    ∀ evs b, processWithCreateMethod e ds numCores = (evs, b) →
    ∃ m, m ≤ nBlocks ds.xSize * nBlocks ds.ySize
      ∧ progressValues evs
          = ((List.range m).map fun j =>
              ((j + 1 : Nat) : ℚ) / ((nBlocks ds.xSize * nBlocks ds.ySize : Nat) : ℚ))
            ++ (if b = true then [1] else []) := by
  intro evs b heq
  by_cases hb : ds.bands = 0
  · simp only [processWithCreateMethod, hb, if_true, Prod.mk.injEq] at heq
    obtain ⟨rfl, rfl⟩ := heq
    exact ⟨0, by omega, by simp [progressValues_cons_log,
      progressValues_cons_finished, progressValues_nil]⟩
  · by_cases hc : e.createOk
    · rcases hpd : processData e ds numCores with ⟨evs0, b0⟩
      simp only [processWithCreateMethod, hb, hc, hpd, if_true, if_false,
        Prod.mk.injEq] at heq
      obtain ⟨rfl, rfl⟩ := heq
      obtain ⟨m, hmle, hpv⟩ := processData_progress e ds numCores evs0 b0 hpd
      exact ⟨m, hmle, by
        rw [progressValues_cons_log, progressValues_cons_create, hpv]⟩
    · simp only [processWithCreateMethod, hb, hc, if_true, if_false,
        Prod.mk.injEq] at heq
      obtain ⟨rfl, rfl⟩ := heq
      exact ⟨0, by omega, by simp [progressValues_cons_log,
        progressValues_cons_create, progressValues_cons_finished,
        progressValues_nil]⟩

/-- Progress values of the CreateCopy path: a prefix of the
driver-reported fraction sequence. -/
lemma processWithCreateCopyMethod_progress (e : Env) :
    ∀ evs b, processWithCreateCopyMethod e = (evs, b) →
    ∃ m, progressValues evs = e.copyProgress.take m := by
  intro evs b heq
  rcases hcp : runCopy e e.copyProgress 0 with ⟨evs0, ok0, poll0⟩
  obtain ⟨m, hm⟩ := runCopy_shape e e.copyProgress 0 evs0 ok0 poll0 hcp
  simp only [processWithCreateCopyMethod, hcp] at heq
  cases ok0 with
  | true =>
      simp only [if_true, Prod.mk.injEq] at heq
      obtain ⟨rfl, rfl⟩ := heq
      exact ⟨m, by rw [progressValues_cons_log, progressValues_cons_copy, hm,
        progressValues_map_progress]⟩
  | false =>
      simp only [Bool.false_eq_true, if_false, Prod.mk.injEq] at heq
      obtain ⟨rfl, rfl⟩ := heq
      refine ⟨m, ?_⟩
      rw [hm, progressValues_append, progressValues_cons_log,
        progressValues_cons_copy, progressValues_map_progress,
        progressValues_cons_finished, progressValues_nil, List.append_nil]

/-- Claim C7: within one job the emitted progress fractions are
monotonically non-decreasing and lie in [0,1] — on the tiled Create path
unconditionally, and on the driver-copy path under the GDAL progress
contract that the driver reports non-decreasing fractions in [0,1]. -/
theorem progress_stream_monotone (e : Env) (mode : ProcessingMode) (numCores : Nat)
    (hchain : List.Chain' (· ≤ ·) e.copyProgress)
    (hbound : ∀ q ∈ e.copyProgress, 0 ≤ q ∧ q ≤ 1) :
    List.Chain' (· ≤ ·) (progressValues (process e mode numCores))
    ∧ ∀ q ∈ progressValues (process e mode numCores), 0 ≤ q ∧ q ≤ 1 := by
  have key : (∃ m T, m ≤ T ∧ ∃ t1 : Bool,
      progressValues (process e mode numCores)
        = ((List.range m).map fun j => ((j + 1 : Nat) : ℚ) / ((T : Nat) : ℚ))
          ++ (if t1 = true then [1] else []))
      ∨ (∃ m, progressValues (process e mode numCores) = e.copyProgress.take m) := by
    rcases hsrc : e.source with _ | ds
    · left
      refine ⟨0, 0, le_refl 0, false, ?_⟩
      simp [process, hsrc, progressValues_cons_log, progressValues_cons_finished,
        progressValues_nil]
    · by_cases hdrv : e.driverExists = true
      · cases mode with
        | CPU =>
            by_cases hcr : e.driverCreate = true
            · left
              rcases hcm : processWithCreateMethod e ds numCores with ⟨evs0, b0⟩
              obtain ⟨m, hmle, hpv⟩ :=
                processWithCreateMethod_progress e ds numCores evs0 b0 hcm
              refine ⟨m, nBlocks ds.xSize * nBlocks ds.ySize, hmle, b0, ?_⟩
              simp only [process, hsrc, hdrv, Bool.not_true, Bool.false_eq_true,
                if_false, hcr, if_true, hcm]
              cases b0 with
              | false =>
                  simp only [progressValues_cons_log, progressValues_cons_lookup,
                    progressValues_append, progressValues_logs, List.nil_append]
                  exact hpv
              | true =>
                  simp only [progressValues_cons_log, progressValues_cons_lookup,
                    progressValues_append, progressValues_logs, List.nil_append,
                    progressValues_cons_finished, progressValues_nil,
                    List.append_nil]
                  simpa using hpv
            · by_cases hcc : e.driverCreateCopy = true
              · right
                rcases hcm : processWithCreateCopyMethod e with ⟨evs0, b0⟩
                obtain ⟨m, hpv⟩ :=
                  processWithCreateCopyMethod_progress e evs0 b0 hcm
                refine ⟨m, ?_⟩
                simp only [Bool.not_eq_true] at hcr
                simp only [process, hsrc, hdrv, Bool.not_true, Bool.false_eq_true,
                  if_false, hcr, hcc, if_true, hcm]
                cases b0 with
                | false =>
                    simp only [progressValues_cons_log, progressValues_cons_lookup,
                      progressValues_append, progressValues_logs, List.nil_append]
                    exact hpv
                | true =>
                    simp only [progressValues_cons_log, progressValues_cons_lookup,
                      progressValues_append, progressValues_logs, List.nil_append,
                      progressValues_cons_finished, progressValues_nil,
                      List.append_nil]
                    simpa using hpv
              · left
                refine ⟨0, 0, le_refl 0, false, ?_⟩
                simp only [Bool.not_eq_true] at hcr hcc
                simp [process, hsrc, hdrv, hcr, hcc, progressValues_cons_log,
                  progressValues_cons_lookup, progressValues_append,
                  progressValues_logs, progressValues_cons_finished,
                  progressValues_nil]
        | GPU =>
            left
            refine ⟨0, 0, le_refl 0, false, ?_⟩
            simp [process, hsrc, hdrv, progressValues_cons_log,
              progressValues_cons_lookup, progressValues_append,
              progressValues_logs, progressValues_cons_finished,
              progressValues_nil]
      · left
        refine ⟨0, 0, le_refl 0, false, ?_⟩
        simp only [Bool.not_eq_true] at hdrv
        simp [process, hsrc, hdrv, progressValues_cons_log,
          progressValues_cons_lookup, progressValues_cons_finished,
          progressValues_nil]
  rcases key with ⟨m, T, hmT, t1, hpv⟩ | ⟨m, hpv⟩
  · rw [hpv]
    exact chain_progress_shape T m hmT t1
  · rw [hpv]
    exact ⟨List.Chain'.take hchain m,
      fun q hq => hbound q (List.mem_of_mem_take hq)⟩

/-! ### Claim C3: strategy selection -/

lemma processData_countP (e : Env) (ds : Dataset) (numCores : Nat)
    (p : Event → Bool)
    (hw : ∀ a b, p (Event.destWriteTile a b) = false)
    (hq : ∀ q, p (Event.progress q) = false)
    (hfin : ∀ b m, p (Event.finished b m) = false)
    (hlog : ∀ s, p (Event.log s) = false) :
    ∀ evs b, processData e ds numCores = (evs, b) → evs.countP p = 0 := by
  intro evs b heq
  rcases hrows : runRows e ds.xSize ds.bands (nBlocks ds.xSize * nBlocks ds.ySize)
      (tileStarts 0 ds.ySize) 0 0 with ⟨evs0, b0, poll0, c0⟩
  have hcnt0 := runRows_countP e ds.xSize ds.bands
    (nBlocks ds.xSize * nBlocks ds.ySize) p hw hq hfin (tileStarts 0 ds.ySize)
    0 0 evs0 b0 poll0 c0 hrows
  simp only [processData, hrows] at heq
  cases b0 with
  | false =>
      simp only [Bool.false_eq_true, if_false, Prod.mk.injEq] at heq
      obtain ⟨rfl, rfl⟩ := heq
      simp [List.countP_cons, hlog, hcnt0]
  | true =>
      by_cases hfl : e.flag poll0
      · simp only [hfl, if_true, Prod.mk.injEq] at heq
        obtain ⟨rfl, rfl⟩ := heq
        simp [List.countP_cons, List.countP_append, hlog, hq, hcnt0]
      · simp only [hfl, if_false, Prod.mk.injEq] at heq
        obtain ⟨rfl, rfl⟩ := heq
        simp [List.countP_cons, List.countP_append, hlog, hfin, hcnt0]

lemma processWithCreateMethod_countP (e : Env) (ds : Dataset) (numCores : Nat)
    (p : Event → Bool)
    (hw : ∀ a b, p (Event.destWriteTile a b) = false)
    (hq : ∀ q, p (Event.progress q) = false)
    (hfin : ∀ b m, p (Event.finished b m) = false)
    (hlog : ∀ s, p (Event.log s) = false)
    (hcre : p Event.destCreate = false) :
    ∀ evs b, processWithCreateMethod e ds numCores = (evs, b) →
      evs.countP p = 0 := by
  intro evs b heq
  by_cases hb : ds.bands = 0
  · simp only [processWithCreateMethod, hb, if_true, Prod.mk.injEq] at heq
    obtain ⟨rfl, rfl⟩ := heq
    simp [List.countP_cons, hlog, hfin]
  · by_cases hc : e.createOk
    · rcases hpd : processData e ds numCores with ⟨evs0, b0⟩
      simp only [processWithCreateMethod, hb, hc, hpd, if_true, if_false,
        Prod.mk.injEq] at heq
      obtain ⟨rfl, rfl⟩ := heq
      simp [List.countP_cons, hlog, hcre,
        processData_countP e ds numCores p hw hq hfin hlog evs0 b0 hpd]
    · simp only [processWithCreateMethod, hb, hc, if_true, if_false,
        Prod.mk.injEq] at heq
      obtain ⟨rfl, rfl⟩ := heq
      simp [List.countP_cons, hlog, hcre, hfin]

/-- On the Create path the driver-internal copy routine is never invoked. -/
lemma process_create_no_copy (e : Env) (n : Nat) (hcr : e.driverCreate = true) :
    (process e .CPU n).countP isCopyEv = 0 := by
  rcases hsrc : e.source with _ | ds
  · simp [process, hsrc, List.countP_cons, isCopyEv]
  · by_cases hdrv : e.driverExists = true
    · rcases hcm : processWithCreateMethod e ds n with ⟨evs0, b0⟩
      have hcnt0 := processWithCreateMethod_countP e ds n isCopyEv
        (fun _ _ => rfl) (fun _ => rfl) (fun _ _ => rfl) (fun _ => rfl) rfl
        evs0 b0 hcm
      simp only [process, hsrc, hdrv, Bool.not_true, Bool.false_eq_true, if_false,
        if_true, hcr, hcm]
      cases b0 with
      | false =>
          simp [List.countP_cons, List.countP_append, isCopyEv, hcnt0,
            countP_option_logs isCopyEv fun _ => rfl]
      | true =>
          simp [List.countP_cons, List.countP_append, isCopyEv, hcnt0,
            countP_option_logs isCopyEv fun _ => rfl]
    · simp only [Bool.not_eq_true] at hdrv
      simp [process, hsrc, hdrv, List.countP_cons, isCopyEv]

/-- Claim C3: strategy selection returns exactly one of three outcomes with
Create-over-CreateCopy precedence; when the Create capability is advertised
the copy routine is never used, and when neither capability is advertised
the job fails terminally with the unsupported-driver message. -/
theorem strategy_selection :
    (∀ createSupported createCopySupported : Bool,
      (createSupported = true →
        selectStrategy createSupported createCopySupported
          = CreationStrategy.fullControlCreate)
      ∧ (createSupported = false → createCopySupported = true →
        selectStrategy createSupported createCopySupported
          = CreationStrategy.streamingCopyCreate)
      ∧ (createSupported = false → createCopySupported = false →
        selectStrategy createSupported createCopySupported
          = CreationStrategy.unsupported))
    ∧ (∀ (e : Env) (n : Nat), e.driverCreate = true →
        (process e .CPU n).countP isCopyEv = 0)
    ∧ (∀ (e : Env) (n : Nat) (ds : Dataset), e.source = some ds →
        e.driverExists = true → e.driverCreate = false →
        e.driverCreateCopy = false →
        ∃ pre, process e .CPU n = pre ++ [Event.finished false
          "Output driver does not support Create or CreateCopy methods."]) := by
  refine ⟨?_, ?_, ?_⟩
  · intro c k
    refine ⟨fun h => by simp [selectStrategy, h],
      fun h1 h2 => by simp [selectStrategy, h1, h2],
      fun h1 h2 => by simp [selectStrategy, h1, h2]⟩
  · intro e n hcr
    exact process_create_no_copy e n hcr
  · intro e n ds hs hdrv hcr hcc
    refine ⟨Event.log "Starting GDAL conversion..."
      :: Event.log "Input file opened successfully."
      :: Event.driverLookup
      :: Event.log ("Output driver found: " ++ e.outputDriverName)
      :: ((e.options.map fun p =>
            Event.log ("Setting GDAL option: " ++ p.1 ++ " = " ++ p.2))
        ++ [Event.log "Processing mode: CPU"]), ?_⟩
    simp [process, hs, hdrv, hcr, hcc]

/-- A concrete destination format advertising neither capability. -/
def noCapsEnv : Env :=
  { source := some ⟨600, 400, 3⟩, driverExists := true, driverCreate := false,
    driverCreateCopy := false, createOk := true, copyOk := true,
    readOk := fun _ _ _ => true, writeOk := fun _ _ _ => true,
    flag := fun _ => true, copyProgress := [], lastErr := "",
    inputFile := "in.tif", outputFile := "out.png",
    outputDriverName := "PNG", options := [] }

/-- Witness for the strategy-selection theorem at concrete capability
sets and a concrete unsupported environment. -/
theorem strategy_selection_witness :
    selectStrategy true true = CreationStrategy.fullControlCreate
    ∧ selectStrategy false true = CreationStrategy.streamingCopyCreate
    ∧ selectStrategy false false = CreationStrategy.unsupported
    ∧ (process noSourceEnv .CPU 4).countP isCopyEv = 0
    ∧ ∃ pre, process noCapsEnv .CPU 4 = pre ++ [Event.finished false
        "Output driver does not support Create or CreateCopy methods."] :=
  ⟨(strategy_selection.1 true true).1 rfl,
    (strategy_selection.1 false true).2.1 rfl rfl,
    (strategy_selection.1 false false).2.2 rfl rfl,
    strategy_selection.2.1 noSourceEnv 4 rfl,
    strategy_selection.2.2 noCapsEnv 4 ⟨600, 400, 3⟩ rfl rfl rfl rfl⟩

/-! ### Cancellation analysis (claims C2, C10, C4 groundwork)

The flag is modelled as `flag i = decide (i < cutoff)`: the `isConverting`
flag is true for the first `cutoff` loads and false afterwards — exactly
the once-only, never-reset cancellation of `requestInterruption`. -/

/-- Events of one fully processed row of tiles. -/
def rowEvents (y total : Nat) : Nat → List Nat → List Event
  | _, [] => []
  | completed, x :: xs =>
    Event.destWriteTile x y
      :: Event.progress (((completed + 1 : Nat) : ℚ) / (total : ℚ))
      :: rowEvents y total (completed + 1) xs

/-- Events of a fully processed sequence of rows. -/
def rowsEvents (xs : List Nat) (total : Nat) : Nat → List Nat → List Event
  | _, [] => []
  | completed, y :: ys =>
    rowEvents y total completed xs
      ++ rowsEvents xs total (completed + xs.length) ys

lemma tileReadOk_of_all (e : Env)
    (hread : ∀ a b c, e.readOk a b c = true) (x y n : Nat) :
    tileReadOk e x y n = true := by
  rw [tileReadOk, List.all_eq_true]
  intro b _
  exact hread x y (b + 1)

lemma tileWriteOk_of_all (e : Env)
    (hwrite : ∀ a b c, e.writeOk a b c = true) (x y n : Nat) :
    tileWriteOk e x y n = true := by
  rw [tileWriteOk, List.all_eq_true]
  intro b _
  exact hwrite x y (b + 1)

/-- Exact behaviour of one inner-loop row under the cutoff flag with all
reads and writes succeeding: either every remaining poll is below the
cutoff and the whole row commits, or the cancellation is observed at a
loop-condition poll (even offset, the loop breaks) or at the mid-iteration
poll (odd offset, the in-flight tile is discarded and the cancel finished
signal is emitted). -/
lemma runRow_cutoff (e : Env) (cutoff : Nat)
    (hflag : ∀ i, e.flag i = decide (i < cutoff))
    (hread : ∀ a b c, e.readOk a b c = true)
    (hwrite : ∀ a b c, e.writeOk a b c = true)
    (y nBands total : Nat) :
    ∀ (xs : List Nat) (poll completed : Nat), poll ≤ cutoff →
    runRow e y nBands total xs poll completed =
      if poll + 2 * xs.length ≤ cutoff then
        (rowEvents y total completed xs, .ok, poll + 2 * xs.length,
          completed + xs.length)
      else if (cutoff - poll) % 2 = 1 then
        (rowEvents y total completed (xs.take ((cutoff - poll) / 2))
          ++ [Event.finished false cancelMsg], .failed, cutoff + 1,
          completed + (cutoff - poll) / 2)
      else
        (rowEvents y total completed (xs.take ((cutoff - poll) / 2)),
          .cancelBreak, cutoff + 1, completed + (cutoff - poll) / 2) := by
  intro xs
  induction xs with
  | nil =>
      intro poll completed hpoll
      rw [if_pos (by simpa using hpoll)]
      simp [runRow, rowEvents]
  | cons x xs ih =>
      intro poll completed hpoll
      rcases Nat.lt_or_ge poll cutoff with hlt | hge
      · have hfl : e.flag poll = true := by
          rw [hflag]; simpa using hlt
        rcases Nat.lt_or_ge (poll + 1) cutoff with hlt2 | hge2
        · have hfl2 : e.flag (poll + 1) = true := by
            rw [hflag]; simpa using hlt2
          have hrd := tileReadOk_of_all e hread x y nBands
          have hwr := tileWriteOk_of_all e hwrite x y nBands
          have hih := ih (poll + 2) (completed + 1) (by omega)
          simp only [runRow, hfl, hrd, hfl2, hwr, if_true, hih]
          by_cases hcond : poll + 2 * (x :: xs).length ≤ cutoff
          · rw [if_pos (by simp at hcond ⊢; omega), if_pos hcond]
            have hlen : poll + 2 + 2 * xs.length = poll + 2 * (x :: xs).length := by
              simp; omega
            have hcompl : completed + 1 + xs.length = completed + (x :: xs).length := by
              simp; omega
            simp only [rowEvents, hlen, hcompl]
          · rw [if_neg (by simp at hcond ⊢; omega), if_neg hcond]
            have hmod : (cutoff - (poll + 2)) % 2 = (cutoff - poll) % 2 := by omega
            have hdiv : (cutoff - poll) / 2 = (cutoff - (poll + 2)) / 2 + 1 := by
              omega
            have htake : (x :: xs).take ((cutoff - poll) / 2)
                = x :: xs.take ((cutoff - (poll + 2)) / 2) := by
              rw [hdiv]
              simp [List.take_succ_cons]
            have hcompl : completed + 1 + (cutoff - (poll + 2)) / 2
                = completed + (cutoff - poll) / 2 := by omega
            rw [hmod]
            by_cases hodd : (cutoff - poll) % 2 = 1
            · rw [if_pos hodd, if_pos hodd]
              simp only [htake, rowEvents, hcompl, List.cons_append]
            · rw [if_neg hodd, if_neg hodd]
              simp only [htake, rowEvents, hcompl]
        · have hc1 : cutoff = poll + 1 := by omega
          have hfl2 : e.flag (poll + 1) = false := by
            rw [hflag]; simp; omega
          have hrd := tileReadOk_of_all e hread x y nBands
          simp only [runRow, hfl, hrd, hfl2, if_true, Bool.false_eq_true, if_false]
          rw [if_neg (by simp; omega), if_pos (by omega)]
          have h0 : (cutoff - poll) / 2 = 0 := by omega
          rw [h0]
          simp [rowEvents, hc1]
      · have hc0 : cutoff = poll := by omega
        have hfl : e.flag poll = false := by
          rw [hflag]; simp; omega
        simp only [runRow, hfl, Bool.false_eq_true, if_false]
        rw [if_neg (by simp; omega), if_neg (by omega)]
        have h0 : (cutoff - poll) / 2 = 0 := by omega
        rw [h0]
        simp [rowEvents, hc0]

/-- The committed tiles expected from the nested loops under the cutoff
flag: per row, a prefix of the x starts whose pre-write check still fell
below the cutoff. -/
def rowsWrites (xs : List Nat) (cutoff : Nat) : List Nat → Nat → List Event
  | [], _ => []
  | y :: ys, p =>
    ((xs.take ((cutoff - (p + 1)) / 2)).map fun x => Event.destWriteTile x y)
      ++ rowsWrites xs cutoff ys (p + (2 * xs.length + 1))

lemma rowsWrites_nil_of_ge (xs : List Nat) (cutoff : Nat) :
    ∀ (ys : List Nat) (p : Nat), cutoff ≤ p → rowsWrites xs cutoff ys p = [] := by
  intro ys
  induction ys with
  | nil => intro p _; rfl
  | cons y ys ih =>
      intro p hp
      rw [rowsWrites]
      have h0 : (cutoff - (p + 1)) / 2 = 0 := by omega
      rw [h0]
      simp [ih (p + (2 * xs.length + 1)) (by omega)]

lemma writeEv_filter_rowEvents (y total : Nat) :
    ∀ (xs : List Nat) (completed : Nat),
    (rowEvents y total completed xs).filter isWriteEv
      = xs.map fun x => Event.destWriteTile x y := by
  intro xs
  induction xs with
  | nil => intro completed; rfl
  | cons x xs ih =>
      intro completed
      simp [rowEvents, List.filter_cons, isWriteEv, ih (completed + 1)]

/-- Past the cutoff the outer loop stops at its first condition poll. -/
lemma runRows_past (e : Env) (cutoff : Nat)
    (hflag : ∀ i, e.flag i = decide (i < cutoff)) (W nBands total : Nat) :
    ∀ (ys : List Nat) (poll completed : Nat), cutoff ≤ poll →
    ∃ pollA, poll ≤ pollA ∧
      runRows e W nBands total ys poll completed = ([], true, pollA, completed) := by
  intro ys poll completed hp
  cases ys with
  | nil => exact ⟨poll, le_refl _, rfl⟩
  | cons y ys =>
      refine ⟨poll + 1, by omega, ?_⟩
      have hfl : e.flag poll = false := by
        rw [hflag]; simp; omega
      simp [runRows, hfl]

/-- The committed tiles of the outer loop under the cutoff flag are exactly
the `rowsWrites` prefix family. -/
lemma runRows_cutoff_writes (e : Env) (cutoff : Nat)
    (hflag : ∀ i, e.flag i = decide (i < cutoff))
    (hread : ∀ a b c, e.readOk a b c = true)
    (hwrite : ∀ a b c, e.writeOk a b c = true) (W nBands total : Nat) :
    ∀ (ys : List Nat) (poll completed : Nat),
    (runRows e W nBands total ys poll completed).1.filter isWriteEv
      = rowsWrites (tileStarts 0 W) cutoff ys poll := by
  intro ys
  induction ys with
  | nil => intro poll completed; rfl
  | cons y ys ih =>
      intro poll completed
      rcases Nat.lt_or_ge poll cutoff with hlt | hge
      · have hfl : e.flag poll = true := by
          rw [hflag]; simpa using hlt
        have hrow := runRow_cutoff e cutoff hflag hread hwrite y nBands total
          (tileStarts 0 W) (poll + 1) completed (by omega)
        by_cases hcond : poll + 1 + 2 * (tileStarts 0 W).length ≤ cutoff
        · rw [if_pos hcond] at hrow
          simp only [runRows, hfl, if_true, hrow]
          rcases hrest : runRows e W nBands total ys
              (poll + 1 + 2 * (tileStarts 0 W).length) (completed + (tileStarts 0 W).length)
            with ⟨evs2, b2, poll2, completed2⟩
          have ih' := ih (poll + 1 + 2 * (tileStarts 0 W).length)
            (completed + (tileStarts 0 W).length)
          rw [hrest] at ih'
          rw [rowsWrites]
          have htake : (tileStarts 0 W).take ((cutoff - (poll + 1)) / 2)
              = tileStarts 0 W :=
            List.take_of_length_le (by omega)
          rw [htake]
          have hp' : poll + (2 * (tileStarts 0 W).length + 1)
              = poll + 1 + 2 * (tileStarts 0 W).length := by omega
          rw [hp']
          simp only [List.filter_append, writeEv_filter_rowEvents]
          rw [ih']
        · rw [if_neg hcond] at hrow
          by_cases hodd : (cutoff - (poll + 1)) % 2 = 1
          · rw [if_pos hodd] at hrow
            simp only [runRows, hfl, if_true, hrow]
            rw [rowsWrites]
            have hnil : rowsWrites (tileStarts 0 W) cutoff ys
                (poll + (2 * (tileStarts 0 W).length + 1)) = [] :=
              rowsWrites_nil_of_ge _ _ _ _ (by omega)
            rw [hnil, List.append_nil]
            simp [List.filter_append, writeEv_filter_rowEvents, isWriteEv]
          · rw [if_neg hodd] at hrow
            simp only [runRows, hfl, if_true, hrow]
            rcases hrest : runRows e W nBands total ys (cutoff + 1)
                (completed + (cutoff - (poll + 1)) / 2)
              with ⟨evs2, b2, poll2, completed2⟩
            have ih' := ih (cutoff + 1) (completed + (cutoff - (poll + 1)) / 2)
            rw [hrest] at ih'
            rw [rowsWrites]
            have hnil : rowsWrites (tileStarts 0 W) cutoff ys
                (poll + (2 * (tileStarts 0 W).length + 1)) = [] :=
              rowsWrites_nil_of_ge _ _ _ _ (by omega)
            have hnil2 : rowsWrites (tileStarts 0 W) cutoff ys (cutoff + 1) = [] :=
              rowsWrites_nil_of_ge _ _ _ _ (by omega)
            rw [hnil, List.append_nil]
            simp only [List.filter_append, writeEv_filter_rowEvents]
            rw [ih', hnil2, List.append_nil]
      · have hfl : e.flag poll = false := by
          rw [hflag]; simp; omega
        simp only [runRows, hfl, Bool.false_eq_true, if_false]
        rw [rowsWrites]
        have h0 : (cutoff - (poll + 1)) / 2 = 0 := by omega
        rw [h0]
        simp [rowsWrites_nil_of_ge _ _ _ _ (by omega : cutoff ≤ poll + (2 * (tileStarts 0 W).length + 1))]

/-- Exit characterization of the outer loop under the cutoff flag: a false
return carries the cancel finished signal as last event; a true return
either ran every poll below the cutoff (final poll index is the nominal
total) or was cut off (final poll index at or past the cutoff). -/
lemma runRows_cutoff_exit (e : Env) (cutoff : Nat)
    (hflag : ∀ i, e.flag i = decide (i < cutoff))
    (hread : ∀ a b c, e.readOk a b c = true)
    (hwrite : ∀ a b c, e.writeOk a b c = true) (W nBands total : Nat) :
    ∀ (ys : List Nat) (poll completed : Nat) evs b poll' completed',
    poll ≤ cutoff →
    runRows e W nBands total ys poll completed = (evs, b, poll', completed') →
    (b = false → ∃ pre, evs = pre ++ [Event.finished false cancelMsg])
    ∧ (b = true →
        (poll + ys.length * (2 * (tileStarts 0 W).length + 1) ≤ cutoff
          ∧ poll' = poll + ys.length * (2 * (tileStarts 0 W).length + 1))
        ∨ (cutoff < poll + ys.length * (2 * (tileStarts 0 W).length + 1)
          ∧ cutoff ≤ poll')) := by
  intro ys
  induction ys with
  | nil =>
      intro poll completed evs b poll' completed' hpoll heq
      simp only [runRows, Prod.mk.injEq] at heq
      obtain ⟨rfl, rfl, rfl, rfl⟩ := heq
      refine ⟨fun h => (nomatch h), fun _ => Or.inl ⟨by simpa using hpoll, by simp⟩⟩
  | cons y ys ih =>
      intro poll completed evs b poll' completed' hpoll heq
      have hmul : (y :: ys).length * (2 * (tileStarts 0 W).length + 1)
          = ys.length * (2 * (tileStarts 0 W).length + 1)
            + (2 * (tileStarts 0 W).length + 1) := by
        rw [List.length_cons, Nat.succ_mul]
      rcases Nat.lt_or_ge poll cutoff with hlt | hge
      · have hfl : e.flag poll = true := by
          rw [hflag]; simpa using hlt
        have hrow := runRow_cutoff e cutoff hflag hread hwrite y nBands total
          (tileStarts 0 W) (poll + 1) completed (by omega)
        by_cases hcond : poll + 1 + 2 * (tileStarts 0 W).length ≤ cutoff
        · rw [if_pos hcond] at hrow
          rcases hrest : runRows e W nBands total ys
              (poll + 1 + 2 * (tileStarts 0 W).length)
              (completed + (tileStarts 0 W).length)
            with ⟨evs2, b2, poll2, completed2⟩
          simp only [runRows, hfl, if_true, hrow, hrest, Prod.mk.injEq] at heq
          obtain ⟨rfl, rfl, rfl, rfl⟩ := heq
          have ih' := ih (poll + 1 + 2 * (tileStarts 0 W).length)
            (completed + (tileStarts 0 W).length) evs2 b2 poll2 completed2
            (by omega) hrest
          constructor
          · intro hb
            obtain ⟨pre, hpre⟩ := ih'.1 hb
            exact ⟨rowEvents y total completed (tileStarts 0 W) ++ pre,
              by rw [hpre, List.append_assoc]⟩
          · intro hb
            rcases ih'.2 hb with ⟨h1, h2⟩ | ⟨h1, h2⟩
            · left
              rw [hmul]
              exact ⟨by omega, by omega⟩
            · right
              rw [hmul]
              exact ⟨by omega, h2⟩
        · rw [if_neg hcond] at hrow
          by_cases hodd : (cutoff - (poll + 1)) % 2 = 1
          · rw [if_pos hodd] at hrow
            simp only [runRows, hfl, if_true, hrow, Prod.mk.injEq] at heq
            obtain ⟨rfl, rfl, rfl, rfl⟩ := heq
            refine ⟨fun _ => ⟨rowEvents y total completed
              ((tileStarts 0 W).take ((cutoff - (poll + 1)) / 2)), rfl⟩,
              fun h => (nomatch h)⟩
          · rw [if_neg hodd] at hrow
            obtain ⟨pollA, hpollA, hpast⟩ := runRows_past e cutoff hflag W nBands
              total ys (cutoff + 1) (completed + (cutoff - (poll + 1)) / 2)
              (by omega)
            simp only [runRows, hfl, if_true, hrow, hpast, Prod.mk.injEq] at heq
            obtain ⟨rfl, rfl, rfl, rfl⟩ := heq
            refine ⟨fun h => (nomatch h), fun _ => Or.inr ?_⟩
            rw [hmul]
            exact ⟨by omega, by omega⟩
      · have hfl : e.flag poll = false := by
          rw [hflag]; simp; omega
        simp only [runRows, hfl, Bool.false_eq_true, if_false,
          Prod.mk.injEq] at heq
        obtain ⟨rfl, rfl, rfl, rfl⟩ := heq
        refine ⟨fun h => (nomatch h), fun _ => Or.inr ?_⟩
        rw [hmul]
        exact ⟨by omega, by omega⟩

/-- Below the cutoff the outer loop commits every tile and produces the
full nominal trace. -/
lemma runRows_cutoff_full (e : Env) (cutoff : Nat)
    (hflag : ∀ i, e.flag i = decide (i < cutoff))
    (hread : ∀ a b c, e.readOk a b c = true)
    (hwrite : ∀ a b c, e.writeOk a b c = true) (W nBands total : Nat) :
    ∀ (ys : List Nat) (poll completed : Nat),
    poll + ys.length * (2 * (tileStarts 0 W).length + 1) ≤ cutoff →
    runRows e W nBands total ys poll completed
      = (rowsEvents (tileStarts 0 W) total completed ys, true,
          poll + ys.length * (2 * (tileStarts 0 W).length + 1),
          completed + ys.length * (tileStarts 0 W).length) := by
  intro ys
  induction ys with
  | nil =>
      intro poll completed hle
      simp [runRows, rowsEvents]
  | cons y ys ih =>
      intro poll completed hle
      have hmul : (y :: ys).length * (2 * (tileStarts 0 W).length + 1)
          = ys.length * (2 * (tileStarts 0 W).length + 1)
            + (2 * (tileStarts 0 W).length + 1) := by
        rw [List.length_cons, Nat.succ_mul]
      have hmul2 : (y :: ys).length * (tileStarts 0 W).length
          = ys.length * (tileStarts 0 W).length + (tileStarts 0 W).length := by
        rw [List.length_cons, Nat.succ_mul]
      rw [hmul] at hle
      have hfl : e.flag poll = true := by
        rw [hflag]; simp; omega
      have hrow := runRow_cutoff e cutoff hflag hread hwrite y nBands total
        (tileStarts 0 W) (poll + 1) completed (by omega)
      rw [if_pos (by omega)] at hrow
      have hrest := ih (poll + 1 + 2 * (tileStarts 0 W).length)
        (completed + (tileStarts 0 W).length) (by omega)
      simp only [runRows, hfl, if_true, hrow, hrest]
      rw [rowsEvents, hmul, hmul2]
      simp only [Prod.mk.injEq, true_and, and_true]
      exact ⟨by omega, by omega⟩

/-- Poll index of the pre-write cancellation check of a tile: its row
contributes one outer-condition poll plus two polls per earlier tile of the
row; the tile itself adds its loop-condition poll and then the mid
iteration poll. The tile is committed iff this index is below the cutoff. -/
def midPollIdx (W : Nat) (t : Tile) : Nat :=
  (t.y / 256) * (2 * nBlocks W + 1) + 2 * (t.x / 256) + 2

lemma range_filter_lt : ∀ n m : Nat,
    (List.range n).filter (fun i => decide (i < m)) = List.range (min m n) := by
  intro n
  induction n with
  | zero => intro m; simp
  | succ n ih =>
      intro m
      rw [List.range_succ, List.filter_append, ih]
      by_cases h : n < m
      · have h1 : min m n = n := by omega
        have h2 : min m (n + 1) = n + 1 := by omega
        rw [h1, h2]
        simp only [List.filter_cons, decide_eq_true_eq, h, if_true,
          List.filter_nil]
        exact (List.range_succ n).symm
      · have h1 : min m n = m := by omega
        have h2 : min m (n + 1) = m := by omega
        rw [h1, h2]
        simp [List.filter_cons, h]

lemma flatMap_congr_left {α β : Type} (l : List α) (f g : α → List β)
    (h : ∀ a ∈ l, f a = g a) : l.flatMap f = l.flatMap g := by
  rw [show l.flatMap f = (l.map f).flatten from rfl,
    show l.flatMap g = (l.map g).flatten from rfl, List.map_congr_left h]

lemma rowsWrites_range_eq (W cutoff : Nat) :
    ∀ (m k : Nat),
    rowsWrites (tileStarts 0 W) cutoff
        ((List.range m).map fun j => 256 * (k + j)) (k * (2 * nBlocks W + 1))
      = (List.range m).flatMap fun j =>
          (List.range (min ((cutoff - ((k + j) * (2 * nBlocks W + 1) + 1)) / 2)
              (nBlocks W))).map
            fun i => Event.destWriteTile (256 * i) (256 * (k + j)) := by
  intro m
  induction m with
  | zero => intro k; rfl
  | succ m ih =>
      intro k
      rw [List.range_succ_eq_map, List.map_cons, rowsWrites,
        List.flatMap_cons, List.map_map]
      have hstep : k * (2 * nBlocks W + 1) + (2 * (tileStarts 0 W).length + 1)
          = (k + 1) * (2 * nBlocks W + 1) := by
        rw [tileStarts_length]; ring
      have hrow : ((tileStarts 0 W).take
            ((cutoff - (k * (2 * nBlocks W + 1) + 1)) / 2)).map
            (fun x => Event.destWriteTile x (256 * (k + 0)))
          = (List.range (min ((cutoff - ((k + 0) * (2 * nBlocks W + 1) + 1)) / 2)
              (nBlocks W))).map
              fun i => Event.destWriteTile (256 * i) (256 * (k + 0)) := by
        rw [tileStarts_closed, ← List.map_take, List.take_range, List.map_map]
        rfl
      have htail : ((List.range m).map
            ((fun j => 256 * (k + j)) ∘ Nat.succ))
          = (List.range m).map fun j => 256 * (k + 1 + j) := by
        apply List.map_congr_left
        intro a _
        simp only [Function.comp_apply]
        exact congrArg (fun n : ℕ => 256 * n) (by omega)
      rw [htail, hstep, ih (k + 1), hrow]
      congr 1
      rw [List.flatMap_map]
      apply flatMap_congr_left
      intro a _
      exact congrArg (fun n : ℕ =>
        (List.range (min ((cutoff - (n * (2 * nBlocks W + 1) + 1)) / 2)
            (nBlocks W))).map
          fun i => Event.destWriteTile (256 * i) (256 * n)) (by omega)

/-- The `rowsWrites` prefix family, started at poll 0 over the real block
starts, is exactly the row-major tile list filtered by the pre-write poll
being below the cutoff. -/
lemma rowsWrites_eq_filter (W H cutoff : Nat) :
    rowsWrites (tileStarts 0 W) cutoff (tileStarts 0 H) 0
      = ((tiles W H).filter fun t => decide (midPollIdx W t < cutoff)).map
          fun t => Event.destWriteTile t.x t.y := by
  have hmain := rowsWrites_range_eq W cutoff (nBlocks H) 0
  simp only [zero_mul, Nat.zero_add] at hmain
  rw [tileStarts_closed H, hmain]
  rw [tiles_closed, List.filter_flatMap, List.map_flatMap]
  apply flatMap_congr_left
  intro j _
  have hmid : ∀ i ∈ List.range (nBlocks W),
      ((fun t => decide (midPollIdx W t < cutoff)) ∘ fun i => tileAt W H i j) i
        = decide (i < (cutoff - (j * (2 * nBlocks W + 1) + 1)) / 2) := by
    intro i _
    simp only [Function.comp_apply]
    have hmid1 : midPollIdx W (tileAt W H i j)
        = j * (2 * nBlocks W + 1) + 2 * i + 2 := by
      unfold midPollIdx tileAt
      dsimp only
      rw [Nat.mul_div_cancel_left i (by norm_num : 0 < 256),
        Nat.mul_div_cancel_left j (by norm_num : 0 < 256)]
    rw [hmid1]
    apply decide_eq_decide.mpr
    generalize j * (2 * nBlocks W + 1) = B
    omega
  rw [List.filter_map, List.filter_congr hmid, range_filter_lt, List.map_map]
  apply List.map_congr_left
  intro i _
  rfl

/-- `processData` under the cutoff flag with all reads and writes
succeeding: the committed tiles are the `rowsWrites` family; a cutoff at
or below the last loop poll yields the cancel outcome (even after all
tiles committed); a cutoff past the final re-check yields success. -/
lemma processData_cutoff (e : Env) (cutoff : Nat)
    (hflag : ∀ i, e.flag i = decide (i < cutoff))
    (hread : ∀ a b c, e.readOk a b c = true)
    (hwrite : ∀ a b c, e.writeOk a b c = true)
    (ds : Dataset) (numCores : Nat) :
    ∀ evs b, processData e ds numCores = (evs, b) →
    evs.filter isWriteEv
        = rowsWrites (tileStarts 0 ds.xSize) cutoff (tileStarts 0 ds.ySize) 0
    ∧ (cutoff ≤ nBlocks ds.ySize * (2 * nBlocks ds.xSize + 1) →
        b = false ∧ ∃ pre, evs = pre ++ [Event.finished false cancelMsg])
    ∧ (nBlocks ds.ySize * (2 * nBlocks ds.xSize + 1) < cutoff → b = true) := by
  intro evs b heq
  have hF : (tileStarts 0 ds.ySize).length * (2 * (tileStarts 0 ds.xSize).length + 1)
      = nBlocks ds.ySize * (2 * nBlocks ds.xSize + 1) := by
    rw [tileStarts_length, tileStarts_length]
  rcases hrows : runRows e ds.xSize ds.bands (nBlocks ds.xSize * nBlocks ds.ySize)
      (tileStarts 0 ds.ySize) 0 0 with ⟨evs0, b0, poll0, c0⟩
  have hwrites := runRows_cutoff_writes e cutoff hflag hread hwrite ds.xSize
    ds.bands (nBlocks ds.xSize * nBlocks ds.ySize) (tileStarts 0 ds.ySize) 0 0
  rw [hrows] at hwrites
  have hexit := runRows_cutoff_exit e cutoff hflag hread hwrite ds.xSize ds.bands
    (nBlocks ds.xSize * nBlocks ds.ySize) (tileStarts 0 ds.ySize) 0 0
    evs0 b0 poll0 c0 (by omega) hrows
  simp only [processData, hrows] at heq
  refine ⟨?_, ?_, ?_⟩
  · -- committed tiles
    cases b0 with
    | false =>
        simp only [Bool.false_eq_true, if_false, Prod.mk.injEq] at heq
        obtain ⟨rfl, rfl⟩ := heq
        simp [List.filter_cons, isWriteEv, hwrites]
    | true =>
        by_cases hfl : e.flag poll0
        · simp only [hfl, if_true, Prod.mk.injEq] at heq
          obtain ⟨rfl, rfl⟩ := heq
          simp [List.filter_cons, List.filter_append, isWriteEv, hwrites]
        · simp only [hfl, if_false, Prod.mk.injEq] at heq
          obtain ⟨rfl, rfl⟩ := heq
          simp [List.filter_cons, List.filter_append, isWriteEv, hwrites]
  · -- cancellation observed at or before the final re-check
    intro hcut
    cases b0 with
    | false =>
        simp only [Bool.false_eq_true, if_false, Prod.mk.injEq] at heq
        obtain ⟨rfl, rfl⟩ := heq
        obtain ⟨pre, hpre⟩ := hexit.1 rfl
        exact ⟨rfl, Event.log ("Starting block processing using "
            ++ toString numCores ++ " core(s)...") :: pre, by simp [hpre]⟩
    | true =>
        have hfl : e.flag poll0 = false := by
          rcases hexit.2 rfl with ⟨h1, h2⟩ | ⟨h1, h2⟩
          · rw [hF] at h1 h2
            rw [hflag]
            simp
            omega
          · rw [hflag]
            simp
            omega
        simp only [hfl, if_false, Prod.mk.injEq] at heq
        obtain ⟨rfl, rfl⟩ := heq
        exact ⟨rfl, Event.log ("Starting block processing using "
            ++ toString numCores ++ " core(s)...") :: evs0, by simp⟩
  · -- success past the final re-check
    intro hcut
    have hfull := runRows_cutoff_full e cutoff hflag hread hwrite ds.xSize
      ds.bands (nBlocks ds.xSize * nBlocks ds.ySize) (tileStarts 0 ds.ySize) 0 0
      (by rw [hF]; omega)
    rw [hfull] at hrows
    simp only [Prod.mk.injEq] at hrows
    obtain ⟨_, hb0, hpoll0, _⟩ := hrows
    have hfl : e.flag poll0 = true := by
      rw [hflag, ← hpoll0]
      simp
      rw [hF]
      omega
    rw [← hb0] at heq
    simp only [hfl, if_true, Prod.mk.injEq] at heq
    exact heq.2.symm

/-- `processData` for a cutoff past every poll: the full nominal trace. -/
lemma processData_cutoff_full (e : Env) (cutoff : Nat)
    (hflag : ∀ i, e.flag i = decide (i < cutoff))
    (hread : ∀ a b c, e.readOk a b c = true)
    (hwrite : ∀ a b c, e.writeOk a b c = true)
    (ds : Dataset) (numCores : Nat)
    (hlt : nBlocks ds.ySize * (2 * nBlocks ds.xSize + 1) < cutoff) :
    processData e ds numCores
      = (Event.log ("Starting block processing using " ++ toString numCores
            ++ " core(s)...")
          :: (rowsEvents (tileStarts 0 ds.xSize)
                (nBlocks ds.xSize * nBlocks ds.ySize) 0 (tileStarts 0 ds.ySize)
              ++ [Event.progress 1]), true) := by
  have hF : (tileStarts 0 ds.ySize).length * (2 * (tileStarts 0 ds.xSize).length + 1)
      = nBlocks ds.ySize * (2 * nBlocks ds.xSize + 1) := by
    rw [tileStarts_length, tileStarts_length]
  have hfull := runRows_cutoff_full e cutoff hflag hread hwrite ds.xSize
    ds.bands (nBlocks ds.xSize * nBlocks ds.ySize) (tileStarts 0 ds.ySize) 0 0
    (by rw [hF]; omega)
  have hfl : e.flag (0 + (tileStarts 0 ds.ySize).length
      * (2 * (tileStarts 0 ds.xSize).length + 1)) = true := by
    rw [hflag]
    simp
    rw [hF]
    omega
  simp only [processData, hfull, hfl, if_true, List.cons_append]

/-- Full trace of `Worker::process` on the Create path, in terms of the
`processData` trace. -/
lemma process_createPath (e : Env) (ds : Dataset) (numCores : Nat)
    (hs : e.source = some ds) (hdrv : e.driverExists = true)
    (hcr : e.driverCreate = true) (hb : ds.bands ≠ 0) (hck : e.createOk = true) :
    ∀ evs b, processData e ds numCores = (evs, b) →
    process e .CPU numCores
      = (Event.log "Starting GDAL conversion..."
          :: Event.log "Input file opened successfully."
          :: Event.driverLookup
          :: Event.log ("Output driver found: " ++ e.outputDriverName)
          :: ((e.options.map fun p =>
                Event.log ("Setting GDAL option: " ++ p.1 ++ " = " ++ p.2))
            ++ (Event.log "Processing mode: CPU"
              :: Event.log "Using Create method."
              :: Event.destCreate
              :: (evs
                ++ (if b then
                    [Event.log "Conversion process completed successfully.",
                      Event.finished true ("Conversion completed successfully: "
                        ++ e.outputFile)]
                  else []))))) := by
  intro evs b heq
  cases b with
  | true => simp [process, processWithCreateMethod, hs, hdrv, hcr, hb, hck, heq]
  | false => simp [process, processWithCreateMethod, hs, hdrv, hcr, hb, hck, heq]

/-- The canonical Create-path environment with all I/O succeeding and the
`isConverting` flag turning false at load number `cutoff`. -/
def cutoffEnv (W H nb cutoff : Nat) : Env :=
  { source := some ⟨W, H, nb⟩, driverExists := true, driverCreate := true,
    driverCreateCopy := false, createOk := true, copyOk := true,
    readOk := fun _ _ _ => true, writeOk := fun _ _ _ => true,
    flag := fun i => decide (i < cutoff), copyProgress := [], lastErr := "",
    inputFile := "input.tif", outputFile := "output.tif",
    outputDriverName := "GTiff", options := [] }

lemma exists_concat_append (l0 l : List Event) (x : Event)
    (h : ∃ pre, l = pre ++ [x]) : ∃ pre, l0 ++ l = pre ++ [x] := by
  obtain ⟨pre, rfl⟩ := h
  exact ⟨l0 ++ pre, by rw [List.append_assoc]⟩

lemma exists_concat_cons (a : Event) (l : List Event) (x : Event)
    (h : ∃ pre, l = pre ++ [x]) : ∃ pre, a :: l = pre ++ [x] := by
  obtain ⟨pre, rfl⟩ := h
  exact ⟨a :: pre, rfl⟩

/-- Master lemma for the cutoff environment: exact committed-tile set,
cancellation outcome up to and including the final re-check, success
outcome strictly past it. -/
lemma process_cutoff_main (W H nb cutoff numCores : Nat) (hnb : 0 < nb) :
    (process (cutoffEnv W H nb cutoff) .CPU numCores).filter isWriteEv
        = (((tiles W H).filter fun t => decide (midPollIdx W t < cutoff)).map
            fun t => Event.destWriteTile t.x t.y)
    ∧ (cutoff ≤ nBlocks H * (2 * nBlocks W + 1) →
        ∃ pre, process (cutoffEnv W H nb cutoff) .CPU numCores
          = pre ++ [Event.finished false cancelMsg])
    ∧ (nBlocks H * (2 * nBlocks W + 1) < cutoff →
        ∃ pre, process (cutoffEnv W H nb cutoff) .CPU numCores
          = pre ++ [Event.finished true
              "Conversion completed successfully: output.tif"]) := by
  have hflag : ∀ i, (cutoffEnv W H nb cutoff).flag i = decide (i < cutoff) :=
    fun _ => rfl
  have hread : ∀ a b c, (cutoffEnv W H nb cutoff).readOk a b c = true :=
    fun _ _ _ => rfl
  have hwrite : ∀ a b c, (cutoffEnv W H nb cutoff).writeOk a b c = true :=
    fun _ _ _ => rfl
  rcases hpd : processData (cutoffEnv W H nb cutoff) ⟨W, H, nb⟩ numCores
    with ⟨evs0, b0⟩
  have hpdlem := processData_cutoff (cutoffEnv W H nb cutoff) cutoff hflag hread
    hwrite ⟨W, H, nb⟩ numCores evs0 b0 hpd
  have hproc := process_createPath (cutoffEnv W H nb cutoff) ⟨W, H, nb⟩ numCores
    rfl rfl rfl (by simp; omega) rfl evs0 b0 hpd
  refine ⟨?_, ?_, ?_⟩
  · rw [hproc]
    have hw := hpdlem.1
    rw [← rowsWrites_eq_filter]
    simp only [cutoffEnv, List.map_nil, List.nil_append, List.filter_cons,
      List.filter_append, isWriteEv]
    cases b0 with
    | true =>
        simp only [if_true, List.filter_cons, List.filter_append, List.filter_nil,
          isWriteEv]
        simpa using hw
    | false =>
        simp only [Bool.false_eq_true, if_false, List.filter_nil]
        simpa using hw
  · intro hcut
    obtain ⟨hb0, pre, hpre⟩ := hpdlem.2.1 hcut
    subst hb0
    rw [hproc]
    simp only [Bool.false_eq_true, if_false, List.append_nil]
    refine exists_concat_cons _ _ _ ?_
    refine exists_concat_cons _ _ _ ?_
    refine exists_concat_cons _ _ _ ?_
    refine exists_concat_cons _ _ _ ?_
    refine exists_concat_append _ _ _ ?_
    refine exists_concat_cons _ _ _ ?_
    refine exists_concat_cons _ _ _ ?_
    refine exists_concat_cons _ _ _ ?_
    exact ⟨pre, hpre⟩
  · intro hcut
    have hb0 := hpdlem.2.2 hcut
    subst hb0
    rw [hproc]
    simp only [if_true]
    refine exists_concat_cons _ _ _ ?_
    refine exists_concat_cons _ _ _ ?_
    refine exists_concat_cons _ _ _ ?_
    refine exists_concat_cons _ _ _ ?_
    refine exists_concat_append _ _ _ ?_
    refine exists_concat_cons _ _ _ ?_
    refine exists_concat_cons _ _ _ ?_
    refine exists_concat_cons _ _ _ ?_
    refine exists_concat_append _ _ _ ?_
    exact ⟨[Event.log "Conversion process completed successfully."], rfl⟩

/-- Claim C2: on the full-control Create path with the cancellation flag
set at load number `cutoff`: the committed tiles are exactly those whose
pre-write cancellation check still saw the flag true (the in-flight tile
whose mid-iteration check observes the cancellation is discarded, never
written); a flag set before any tile is processed commits nothing; and any
cancellation observed during the loop (or at the final re-check) makes the
job terminate with the cancellation finished signal. -/
theorem cancellation_create_path (W H nb cutoff numCores : Nat)
    (hW : 0 < W) (hH : 0 < H) (hnb : 0 < nb) :
    (process (cutoffEnv W H nb cutoff) .CPU numCores).filter isWriteEv
        = (((tiles W H).filter fun t => decide (midPollIdx W t < cutoff)).map
            fun t => Event.destWriteTile t.x t.y)
    ∧ (cutoff = 0 →
        (process (cutoffEnv W H nb cutoff) .CPU numCores).filter isWriteEv = [])
    ∧ (cutoff ≤ nBlocks H * (2 * nBlocks W + 1) →
        ∃ pre, process (cutoffEnv W H nb cutoff) .CPU numCores
          = pre ++ [Event.finished false cancelMsg]) := by
  have h := process_cutoff_main W H nb cutoff numCores hnb
  refine ⟨h.1, ?_, h.2.1⟩
  intro h0
  subst h0
  rw [h.1]
  have hnil : (tiles W H).filter (fun t => decide (midPollIdx W t < 0)) = [] := by
    rw [List.filter_eq_nil_iff]
    intro t _
    simp
  rw [hnil]
  rfl

/-- Witness for the cancellation theorem: a 600×400, 3-band raster with
the flag cleared before any load (cutoff 0) and after three loads
(cutoff 3, i.e. one committed tile). -/
theorem cancellation_create_path_witness :
    (process (cutoffEnv 600 400 3 0) .CPU 2).filter isWriteEv = []
    ∧ (∃ pre, process (cutoffEnv 600 400 3 3) .CPU 2
        = pre ++ [Event.finished false cancelMsg]) :=
  ⟨(cancellation_create_path 600 400 3 0 2 (by decide) (by decide)
      (by decide)).2.1 rfl,
    (cancellation_create_path 600 400 3 3 2 (by decide) (by decide)
      (by decide)).2.2 (by decide)⟩

/-- Claim C10: after the tile loop the flag is rechecked once more: with
the flag clearing exactly at the final re-check every one of the n tiles
has been committed and the job still terminates with the cancellation
outcome; success is reported only when the flag is still set strictly past
that final re-check. -/
theorem final_recheck_after_loop (W H nb numCores : Nat)
    (hW : 0 < W) (hH : 0 < H) (hnb : 0 < nb) :
    ((process (cutoffEnv W H nb (nBlocks H * (2 * nBlocks W + 1))) .CPU
        numCores).filter isWriteEv).length = nBlocks W * nBlocks H
    ∧ (∃ pre, process (cutoffEnv W H nb (nBlocks H * (2 * nBlocks W + 1))) .CPU
        numCores = pre ++ [Event.finished false cancelMsg])
    ∧ (∀ cutoff, nBlocks H * (2 * nBlocks W + 1) < cutoff →
        ∃ pre, process (cutoffEnv W H nb cutoff) .CPU numCores
          = pre ++ [Event.finished true
              "Conversion completed successfully: output.tif"]) := by
  have h := process_cutoff_main W H nb (nBlocks H * (2 * nBlocks W + 1))
    numCores hnb
  refine ⟨?_, h.2.1 (le_refl _),
    fun cutoff hcut => (process_cutoff_main W H nb cutoff numCores hnb).2.2 hcut⟩
  rw [h.1]
  have hall : (tiles W H).filter
      (fun t => decide (midPollIdx W t < nBlocks H * (2 * nBlocks W + 1)))
      = tiles W H := by
    rw [List.filter_eq_self]
    intro t ht
    rw [tiles_mem] at ht
    obtain ⟨i, hi, j, hj, rfl⟩ := ht
    have hmid : midPollIdx W (tileAt W H i j)
        = j * (2 * nBlocks W + 1) + 2 * i + 2 := by
      unfold midPollIdx tileAt
      dsimp only
      rw [Nat.mul_div_cancel_left i (by norm_num : 0 < 256),
        Nat.mul_div_cancel_left j (by norm_num : 0 < 256)]
    rw [hmid, decide_eq_true_eq]
    have hstep : (j + 1) * (2 * nBlocks W + 1)
        = j * (2 * nBlocks W + 1) + (2 * nBlocks W + 1) := by ring
    have hA : (j + 1) * (2 * nBlocks W + 1)
        ≤ nBlocks H * (2 * nBlocks W + 1) :=
      Nat.mul_le_mul_right _ (by omega)
    omega
  rw [hall, List.length_map, tiles_length]

/-- Witness for the final-recheck theorem at a 600×400, 3-band raster. -/
theorem final_recheck_after_loop_witness :
    ((process (cutoffEnv 600 400 3 (nBlocks 400 * (2 * nBlocks 600 + 1))) .CPU
        2).filter isWriteEv).length = nBlocks 600 * nBlocks 400
    ∧ (∃ pre, process (cutoffEnv 600 400 3 15) .CPU 2
        = pre ++ [Event.finished true
            "Conversion completed successfully: output.tif"]) :=
  ⟨(final_recheck_after_loop 600 400 3 2 (by decide) (by decide) (by decide)).1,
    (final_recheck_after_loop 600 400 3 2 (by decide) (by decide)
      (by decide)).2.2 15 (by decide)⟩

/-! ### Claim C4: the 600×400 progress sequence -/

lemma tileStarts_600 : tileStarts 0 600 = [0, 256, 512] := by
  rw [tileStarts_closed]
  rfl

lemma tileStarts_400 : tileStarts 0 400 = [0, 256] := by
  rw [tileStarts_closed]
  rfl

/-- The exact progress-value sequence of the 600×400, 3-band demo
conversion: one fraction per committed tile and the extra final `1.0`
update of line 376. -/
lemma demo_progressValues :
    progressValues (process (cutoffEnv 600 400 3 1000) .CPU 4)
      = [1/6, 2/6, 3/6, 4/6, 5/6, 6/6, 1] := by
  have hpdfull := processData_cutoff_full (cutoffEnv 600 400 3 1000) 1000
    (fun _ => rfl) (fun _ _ _ => rfl) (fun _ _ _ => rfl) ⟨600, 400, 3⟩ 4
    (by decide)
  have hproc := process_createPath (cutoffEnv 600 400 3 1000) ⟨600, 400, 3⟩ 4
    rfl rfl rfl (by decide) rfl _ true hpdfull
  rw [hproc]
  norm_num [progressValues_append, progressValues_cons_log,
    progressValues_cons_lookup, progressValues_cons_create,
    progressValues_cons_write, progressValues_cons_progress,
    progressValues_cons_finished, progressValues_nil, rowsEvents, rowEvents,
    tileStarts_600, tileStarts_400, nBlocks, cutoffEnv]

/-- Counterexample to claim C4 as stated: the 600×400 job emits seven
progress updates, not six — after 6/6 the post-loop code emits one more
`progressUpdated(1.0f)` (line 376), so the update sequence is not exactly
the six fractions 1/6 … 6/6. -/
theorem progress_updates_counterexample :
    progressValues (process (cutoffEnv 600 400 3 1000) .CPU 4)
        = [1/6, 2/6, 3/6, 4/6, 5/6, 6/6, 1]
    ∧ progressValues (process (cutoffEnv 600 400 3 1000) .CPU 4)
        ≠ [1/6, 2/6, 3/6, 4/6, 5/6, 6/6] := by
  refine ⟨demo_progressValues, ?_⟩
  rw [demo_progressValues]
  intro hcontra
  have hlen := congrArg List.length hcontra
  simp at hlen

/-- Claim C4 (amended): converting a 600×400 source on the full-control
path with 256×256 tiles processes exactly 3×2 = 6 tiles and emits the
fractions 1/6, 2/6, …, 6/6 in that exact order, one per completed tile,
followed by one additional duplicate final update of 1.0 emitted after the
loop completes. -/
theorem progress_updates_600x400 :
    (tiles 600 400).length = 6
    ∧ progressValues (process (cutoffEnv 600 400 3 1000) .CPU 4)
        = [1/6, 2/6, 3/6, 4/6, 5/6, 6/6, 1] :=
  ⟨by rw [tiles_length]; rfl, demo_progressValues⟩

/-- Witness for the progress-monotonicity theorem on the concrete 600×400
success run (empty driver-copy fraction sequence). -/
theorem progress_stream_monotone_witness :
    List.Chain' (· ≤ ·) (progressValues (process (cutoffEnv 600 400 3 1000) .CPU 4))
    ∧ ∀ q ∈ progressValues (process (cutoffEnv 600 400 3 1000) .CPU 4),
        0 ≤ q ∧ q ≤ 1 :=
  progress_stream_monotone (cutoffEnv 600 400 3 1000) .CPU 4 List.chain'_nil
    (by simp [cutoffEnv])

end GDALRasterConverter
